import Mathlib

/-
Verification development for a grep-style regex engine written in Go.
The engine exists in two variants over the same surface language:
a recursive-descent parser producing a tree of match nodes (package main,
files part_000 / ast_tagged.go), and a Thompson construction compiled to a
tagged NFA simulated by subset closure (package nfa, file part_001).

Shallow embedding conventions:
  - a Go byte is a Nat (only compared, never overflowed);
  - a Go string / []byte is a List Nat of byte values;
  - Go slicing input[a:b] is modelled by `slice` (total; the Go panics on
    out-of-range indices are unreachable at the places slice is used, which
    is part of what is proved);
  - Go functions returning (value, error) are modelled with GoResult, which
    also has a `panicked` constructor for Go runtime panics and a `timeout`
    constructor marking fuel exhaustion of loops that Go runs unboundedly;
  - unbounded Go loops and recursions take an explicit fuel argument.
-/

/-- Byte value of a character (all source patterns are ASCII). -/
def ch (c : Char) : Nat := c.toNat

/-- Byte list of a string, the model of a Go string / []byte. -/
def bytes (s : String) : List Nat := s.data.map Char.toNat

/-- Go slice input[a:b], total version. -/
def sliceB (input : List Nat) (a b : Nat) : List Nat := (input.drop a).take (b - a)

/-- Result of a Go computation: normal value, returned error, runtime panic,
or fuel exhaustion of a loop that Go would keep running. -/
inductive GoResult (α : Type) where
  | ok (a : α)
  | err (msg : String)
  | panicked (msg : String)
  | timeout
deriving DecidableEq, Repr

namespace Ast

/-- Go type MatchResult(matchAll side): one endpoint with its capture vector.
Captures are strings, modelled as byte lists. -/
structure MatchResult where
  endPos : Nat
  captures : List (List Nat)
deriving DecidableEq, Repr

/-- Pattern node, the closed tagged variant of the tree engine (part_000). -/
inductive Node where
  | seq (children : List Node)
  | lit (value : Nat)
  | charClass (chars : List Nat) (negated : Bool)
  | startAnchor
  | endAnchor
  | quant (child : Node) (min : Nat) (max : Int) (greedy : Bool)
  | dot
  | capture (child : Node) (groupIdx : Nat)
  | alternation (children : List Node)
deriving Repr

/-- Go type Parser: pattern cursor plus the next capture-group id. -/
structure Parser where
  pattern : List Nat
  pos : Nat
  nextGroupId : Nat
deriving DecidableEq, Repr

/-- Parser.peek: current byte without advancing; 0 at end of pattern. -/
def Parser.peek (p : Parser) : Nat := (p.pattern.get? p.pos).getD 0

/-- Parser.advance: consume and return current byte; 0 (no move) at end. -/
def Parser.advance (p : Parser) : Nat × Parser :=
  match p.pattern.get? p.pos with
  | some c => (c, { p with pos := p.pos + 1 })
  | none => (0, p)

/-- Parser.isEOF. -/
def Parser.isEOF (p : Parser) : Bool := p.pattern.length ≤ p.pos

/-- isQuantifier from part_000. -/
def isQuantifier (c : Nat) : Bool := c = ch '*' ∨ c = ch '+' ∨ c = ch '?'

/-- Loop body of Parser.parseCharClass: read raw bytes until a closing
bracket or end of pattern. Structural on fuel so that evaluation reduces;
classChars supplies fuel that always suffices because every iteration
advances the cursor. -/
def classCharsF : Nat → Parser → List Nat → List Nat × Parser
  | 0, p, acc => (acc, p)
  | fuel + 1, p, acc =>
    match p.pattern.get? p.pos with
    | none => (acc, p)
    | some c =>
      if c = ch ']' then (acc, p)
      else classCharsF fuel { p with pos := p.pos + 1 } (acc ++ [c])

/-- Byte-collection loop of Parser.parseCharClass. -/
def classChars (p : Parser) (acc : List Nat) : List Nat × Parser :=
  classCharsF (p.pattern.length - p.pos + 1) p acc

/-- Parser.parseCharClass from part_000: optional leading caret negates, then
raw bytes until the closing bracket, which is required. -/
def Parser.parseCharClass (p : Parser) : GoResult (Node × Parser) :=
  let (negated, p1) :=
    if p.peek = ch '^' then (true, (p.advance).2) else (false, p)
  let (chars, p2) := classChars p1 []
  if p2.isEOF then .err "expecting ]"
  else .ok (.charClass chars negated, (p2.advance).2)

/-- Parser.parseEscape from part_000: d / w / s become character classes,
every other escaped byte is a literal. The tree parser has no backreference. -/
def Parser.parseEscape (p : Parser) : GoResult (Node × Parser) :=
  let (c, p1) := p.advance
  if c = ch 'd' then .ok (.charClass (bytes "0123456789") false, p1)
  else if c = ch 'w' then
    .ok (.charClass (bytes "abcdefghijklmnopqrstuvwxyzABCDEFGHIJKLMNOPQRSTUVWXYZ0123456789_") false, p1)
  else if c = ch 's' then .ok (.charClass (bytes " \t\n\r\x0c\x0b") false, p1)
  else .ok (.lit c, p1)

mutual

/-- Parser.parseExpression from part_000: alternatives separated by the pipe
byte; a single alternative is returned unwrapped. -/
def parseExpressionF : Nat → Parser → GoResult (Node × Parser)
  | 0, _ => .timeout
  | fuel + 1, p => parseAlternativesF fuel p []

/-- Outer loop of Parser.parseExpression, accumulating alternatives. -/
def parseAlternativesF : Nat → Parser → List Node → GoResult (Node × Parser)
  | 0, _, _ => .timeout
  | fuel + 1, p, alts =>
    match parseNodesF fuel p [] with
    | .ok (nodes, p1) =>
      match nodes with
      | [] => .err "empty pattern"
      | _ =>
        let alternative := match nodes with
          | [n] => n
          | _ => Node.seq nodes
        let alts1 := alts ++ [alternative]
        if p1.peek = ch '|' then
          parseAlternativesF fuel (p1.advance).2 alts1
        else
          match alts1 with
          | [a] => .ok (a, p1)
          | _ => .ok (.alternation alts1, p1)
    | .err m => .err m
    | .panicked m => .panicked m
    | .timeout => .timeout

/-- Inner loop of Parser.parseExpression: collect quantified atoms until a
pipe, a closing parenthesis, or end of pattern. -/
def parseNodesF : Nat → Parser → List Node → GoResult (List Node × Parser)
  | 0, _, _ => .timeout
  | fuel + 1, p, nodes =>
    if p.isEOF ∨ p.peek = ch '|' ∨ p.peek = ch ')' then .ok (nodes, p)
    else
      match parseQuantifiedF fuel p with
      | .ok (atom, p1) => parseNodesF fuel p1 (nodes ++ [atom])
      | .err m => .err m
      | .panicked m => .panicked m
      | .timeout => .timeout

/-- Parser.parseQuantified from part_000: an atom optionally followed by a
star, plus or question mark, with a trailing question mark clearing greedy. -/
def parseQuantifiedF : Nat → Parser → GoResult (Node × Parser)
  | 0, _ => .timeout
  | fuel + 1, p =>
    match parseAtomF fuel p with
    | .ok (atom, p1) =>
      if p1.isEOF ∨ ¬ isQuantifier p1.peek then .ok (atom, p1)
      else
        let (c, p2) := p1.advance
        let (greedy, p3) :=
          if p2.peek = ch '?' then (false, (p2.advance).2) else (true, p2)
        if c = ch '*' then .ok (.quant atom 0 (-1) greedy, p3)
        else if c = ch '+' then .ok (.quant atom 1 (-1) greedy, p3)
        else if c = ch '?' then .ok (.quant atom 0 1 greedy, p3)
        else .err "unexpected quantifier"
    | .err m => .err m
    | .panicked m => .panicked m
    | .timeout => .timeout

/-- Parser.parseAtom from part_000. Any byte that is not one of the seven
special bytes, including a quantifier byte, becomes a literal. -/
def parseAtomF : Nat → Parser → GoResult (Node × Parser)
  | 0, _ => .timeout
  | fuel + 1, p =>
    let (c, p1) := p.advance
    if c = ch '\\' then p1.parseEscape
    else if c = ch '[' then p1.parseCharClass
    else if c = ch '(' then parseGroupF fuel p1
    else if c = ch '^' then .ok (.startAnchor, p1)
    else if c = ch '$' then .ok (.endAnchor, p1)
    else if c = ch '.' then .ok (.dot, p1)
    else .ok (.lit c, p1)

/-- Parser.parseGroup from part_000: allocate the group id at the opening
parenthesis, parse the body, require the closing parenthesis. -/
def parseGroupF : Nat → Parser → GoResult (Node × Parser)
  | 0, _ => .timeout
  | fuel + 1, p =>
    let groupIdx := p.nextGroupId
    let p0 := { p with nextGroupId := p.nextGroupId + 1 }
    match parseExpressionF fuel p0 with
    | .ok (content, p1) =>
      if p1.isEOF ∨ p1.peek ≠ ch ')' then .err "expected )"
      else .ok (.capture content groupIdx, (p1.advance).2)
    | .err m => .err m
    | .panicked m => .panicked m
    | .timeout => .timeout

end

/-- Fuel that lets the recursive-descent parser consume a whole pattern:
every level of the mutual recursion either consumes a byte or stops. -/
def parseFuel (pattern : List Nat) : Nat := 8 * pattern.length + 16

/-- parse from part_000: rejects the empty pattern, then parses an
expression, returning the tree and the final nextGroupId (= 1 + number of
capture groups). Trailing unconsumed input is ignored, as in the source. -/
def parse (pattern : List Nat) : GoResult (Node × Nat) :=
  if pattern = [] then .err "empty pattern"
  else
    match parseExpressionF (parseFuel pattern) ⟨pattern, 0, 1⟩ with
    | .ok (ast, p) => .ok (ast, p.nextGroupId)
    | .err m => .err m
    | .panicked m => .panicked m
    | .timeout => .timeout

end Ast

namespace Ast

mutual

/-- Node.matchAll from ast_tagged.go: all endpoints reachable from pos, with
capture vectors threaded through. Fuel models the unbounded quantifier loop
(which the Go source runs forever on patterns like a nested nullable star);
none marks fuel exhaustion, never a non-match. -/
def matchAllF : Nat → Node → List Nat → Nat → List (List Nat) → Option (List MatchResult)
  | 0, _, _, _, _ => none
  | fuel + 1, node, input, pos, captures =>
    match node with
    | .seq children => matchAllChildrenF fuel children input pos captures
    | .lit v =>
      some (match input.get? pos with
        | some b => if v = b then [⟨pos + 1, captures⟩] else []
        | none => [])
    | .charClass cs neg =>
      some (match input.get? pos with
        | some b => if cs.contains b ≠ neg then [⟨pos + 1, captures⟩] else []
        | none => [])
    | .startAnchor => some (if pos = 0 then [⟨pos, captures⟩] else [])
    | .endAnchor => some (if pos = input.length then [⟨pos, captures⟩] else [])
    | .dot =>
      some (match input.get? pos with
        | some _ => [⟨pos + 1, captures⟩]
        | none => [])
    | .capture child gidx =>
      match matchAllF fuel child input pos captures with
      | none => none
      | some ms =>
        some (ms.map fun m => ⟨m.endPos, m.captures.set gidx (sliceB input pos m.endPos)⟩)
    | .alternation children => matchAllAltF fuel children input pos captures
    | .quant child _mn mx greedy =>
      match quantLoopF fuel child input pos captures _mn mx with
      | none => none
      | some all => some (if all = [] then [] else if greedy then all.reverse else all)
termination_by structural fuel _ _ _ _ => fuel

/-- SequenceNode.matchAllChildren: recursion over the remaining children. -/
def matchAllChildrenF : Nat → List Node → List Nat → Nat → List (List Nat) → Option (List MatchResult)
  | 0, _, _, _, _ => none
  | _ + 1, [], _, pos, captures => some [⟨pos, captures⟩]
  | fuel + 1, child :: rest, input, pos, captures =>
    match matchAllF fuel child input pos captures with
    | none => none
    | some childMatches => seqRestF fuel rest input childMatches
termination_by structural fuel _ _ _ _ => fuel

/-- For each endpoint of the current child, match the remaining children,
concatenating the result lists in order. -/
def seqRestF : Nat → List Node → List Nat → List MatchResult → Option (List MatchResult)
  | 0, _, _, _ => none
  | _ + 1, _, _, [] => some []
  | fuel + 1, rest, input, m :: ms =>
    match matchAllChildrenF fuel rest input m.endPos m.captures with
    | none => none
    | some rs =>
      match seqRestF fuel rest input ms with
      | none => none
      | some rss => some (rs ++ rss)
termination_by structural fuel _ _ _ => fuel

/-- AlternationNode.matchAll: union of the children endpoint sets in order. -/
def matchAllAltF : Nat → List Node → List Nat → Nat → List (List Nat) → Option (List MatchResult)
  | 0, _, _, _, _ => none
  | _ + 1, [], _, _, _ => some []
  | fuel + 1, c :: cs, input, pos, captures =>
    match matchAllF fuel c input pos captures with
    | none => none
    | some rs =>
      match matchAllAltF fuel cs input pos captures with
      | none => none
      | some rss => some (rs ++ rss)
termination_by structural fuel _ _ _ _ => fuel

/-- QuantifierNode.matchAll main loop: try each count from min while max is
minus one or count is at most max, stopping at the first empty exact set. -/
def quantLoopF : Nat → Node → List Nat → Nat → List (List Nat) → Nat → Int → Option (List MatchResult)
  | 0, _, _, _, _, _, _ => none
  | fuel + 1, child, input, pos, captures, count, mx =>
    if mx ≠ -1 ∧ mx < (count : Int) then some []
    else
      match matchExactlyF fuel child input pos captures count with
      | none => none
      | some [] => some []
      | some exact =>
        match quantLoopF fuel child input pos captures (count + 1) mx with
        | none => none
        | some rest => some (exact ++ rest)
termination_by structural fuel _ _ _ _ _ _ => fuel

/-- QuantifierNode.matchExactly: zero matches clear the capture slot of a
capture child; otherwise iterate the child count times. -/
def matchExactlyF : Nat → Node → List Nat → Nat → List (List Nat) → Nat → Option (List MatchResult)
  | 0, _, _, _, _, _ => none
  | _ + 1, child, _, pos, captures, 0 =>
    some (match child with
      | .capture _ gidx => [⟨pos, captures.set gidx []⟩]
      | _ => [⟨pos, captures⟩])
  | fuel + 1, child, input, pos, captures, count + 1 =>
    iterExactF fuel child input [⟨pos, captures⟩] (count + 1)
termination_by structural fuel _ _ _ _ _ => fuel

/-- Iterate the child over the current result set a given number of times,
returning the empty list as soon as a round yields nothing. -/
def iterExactF : Nat → Node → List Nat → List MatchResult → Nat → Option (List MatchResult)
  | 0, _, _, _, _ => none
  | _ + 1, _, _, current, 0 => some current
  | fuel + 1, child, input, current, k + 1 =>
    match stepExactF fuel child input current with
    | none => none
    | some [] => some []
    | some next => iterExactF fuel child input next k
termination_by structural fuel _ _ _ _ => fuel

/-- One round of matchExactly: the child matched from every current result. -/
def stepExactF : Nat → Node → List Nat → List MatchResult → Option (List MatchResult)
  | 0, _, _, _ => none
  | _ + 1, _, _, [] => some []
  | fuel + 1, child, input, m :: ms =>
    match matchAllF fuel child input m.endPos m.captures with
    | none => none
    | some rs =>
      match stepExactF fuel child input ms with
      | none => none
      | some rss => some (rs ++ rss)
termination_by structural fuel _ _ _ => fuel

end

end Ast

namespace Ast

/-- Go type MatchResult (backtracking side): Success flag, end position and
capture vector. -/
structure BMatchResult where
  success : Bool
  endPos : Nat
  captures : List (List Nat)
deriving DecidableEq, Repr

/-- mergeCaptures from ast_tagged.go. When both vectors are non-empty the
result is the second vector padded with empty strings up to the length of the
first: the final source loop overwrites the surviving entries of the first
vector with empty strings. -/
def mergeCaptures (c1 c2 : List (List Nat)) : List (List Nat) :=
  if c1 = [] then c2
  else if c2 = [] then c1
  else c2 ++ List.replicate (c1.length - c2.length) []

mutual

/-- Node.match from ast_tagged.go, the backtracking evaluator. The
QuantifierNode case is the source panic "Should not be called": quantifiers
are only handled when they occur as a child of a SequenceNode. -/
def matchF : Nat → Node → List Nat → Nat → GoResult BMatchResult
  | 0, _, _, _ => .timeout
  | fuel + 1, node, input, pos =>
    match node with
    | .seq children => matchFromChildF fuel children input pos
    | .quant _ _ _ _ => .panicked "Should not be called"
    | .lit v =>
      .ok (match input.get? pos with
        | some b => if v = b then ⟨true, pos + 1, []⟩ else ⟨false, pos, []⟩
        | none => ⟨false, pos, []⟩)
    | .charClass cs neg =>
      .ok (match input.get? pos with
        | none => ⟨false, pos, []⟩
        | some b =>
          if cs.contains b then
            if neg then ⟨false, pos, []⟩ else ⟨true, pos + 1, []⟩
          else
            if neg then ⟨true, pos + 1, []⟩ else ⟨false, pos, []⟩)
    | .startAnchor => .ok (if pos = 0 then ⟨true, pos, []⟩ else ⟨false, pos, []⟩)
    | .endAnchor => .ok (if pos = input.length then ⟨true, pos, []⟩ else ⟨false, pos, []⟩)
    | .dot =>
      .ok (match input.get? pos with
        | some _ => ⟨true, pos + 1, []⟩
        | none => ⟨false, pos, []⟩)
    | .capture child gidx =>
      match matchF fuel child input pos with
      | .ok r =>
        if ¬ r.success then .ok r
        else
          let capturedText := sliceB input pos r.endPos
          let requiredSize := max (gidx + 1) r.captures.length
          let caps :=
            (r.captures ++ List.replicate (requiredSize - r.captures.length) []).set gidx capturedText
          .ok ⟨true, r.endPos, caps⟩
      | .err m => .err m
      | .panicked m => .panicked m
      | .timeout => .timeout
    | .alternation children => matchAltF fuel children input pos
termination_by structural fuel _ _ _ => fuel

/-- AlternationNode.match: first successful child wins. -/
def matchAltF : Nat → List Node → List Nat → Nat → GoResult BMatchResult
  | 0, _, _, _ => .timeout
  | _ + 1, [], _, pos => .ok ⟨false, pos, []⟩
  | fuel + 1, c :: cs, input, pos =>
    match matchF fuel c input pos with
    | .ok r => if r.success then .ok r else matchAltF fuel cs input pos
    | .err m => .err m
    | .panicked m => .panicked m
    | .timeout => .timeout
termination_by structural fuel _ _ _ => fuel

/-- SequenceNode.matchFromChild: quantifier children are special-cased via
getAllMatchesWithCaptures, other children are matched then the rest. -/
def matchFromChildF : Nat → List Node → List Nat → Nat → GoResult BMatchResult
  | 0, _, _, _ => .timeout
  | _ + 1, [], _, pos => .ok ⟨true, pos, []⟩
  | fuel + 1, child :: rest, input, pos =>
    match child with
    | .quant qc qmin qmax qgreedy =>
      match getAllMatchesF fuel qc qmin qmax qgreedy input pos with
      | .ok possibles => tryQuantF fuel possibles rest input pos
      | .err m => .err m
      | .panicked m => .panicked m
      | .timeout => .timeout
    | _ =>
      match matchF fuel child input pos with
      | .ok mr =>
        if ¬ mr.success then .ok ⟨false, pos, []⟩
        else
          match matchFromChildF fuel rest input mr.endPos with
          | .ok rr =>
            if ¬ rr.success then .ok rr
            else .ok ⟨true, rr.endPos, mergeCaptures mr.captures rr.captures⟩
          | .err m => .err m
          | .panicked m => .panicked m
          | .timeout => .timeout
      | .err m => .err m
      | .panicked m => .panicked m
      | .timeout => .timeout
termination_by structural fuel _ _ _ => fuel

/-- Try each quantifier possibility in order, matching the remaining sequence
children after it, as in the quantifier branch of matchFromChild. -/
def tryQuantF : Nat → List MatchResult → List Node → List Nat → Nat → GoResult BMatchResult
  | 0, _, _, _, _ => .timeout
  | _ + 1, [], _, _, pos => .ok ⟨false, pos, []⟩
  | fuel + 1, q :: qs, rest, input, pos =>
    match matchFromChildF fuel rest input q.endPos with
    | .ok rr =>
      if rr.success then .ok ⟨true, rr.endPos, mergeCaptures q.captures rr.captures⟩
      else tryQuantF fuel qs rest input pos
    | .err m => .err m
    | .panicked m => .panicked m
    | .timeout => .timeout
termination_by structural fuel _ _ _ _ => fuel

/-- QuantifierNode.getAllMatchesWithCaptures: meet the minimum count, then
extend up to the maximum, ordering results by greediness. -/
def getAllMatchesF : Nat → Node → Nat → Int → Bool → List Nat → Nat → GoResult (List MatchResult)
  | 0, _, _, _, _, _, _ => .timeout
  | fuel + 1, child, qmin, qmax, greedy, input, pos =>
    match phase1F fuel child input pos qmin [] with
    | .ok none => .ok []
    | .ok (some (curr, caps)) =>
      match phase2F fuel child input curr qmin qmax caps [⟨curr, caps⟩] with
      | .ok results => .ok (if greedy then results.reverse else results)
      | .err m => .err m
      | .panicked m => .panicked m
      | .timeout => .timeout
    | .err m => .err m
    | .panicked m => .panicked m
    | .timeout => .timeout
termination_by structural fuel _ _ _ _ _ _ => fuel

/-- First loop of getAllMatchesWithCaptures: match the child the minimum
number of times; none when the minimum cannot be met. -/
def phase1F : Nat → Node → List Nat → Nat → Nat → List (List Nat) → GoResult (Option (Nat × List (List Nat)))
  | 0, _, _, _, _, _ => .timeout
  | _ + 1, _, _, curr, 0, caps => .ok (some (curr, caps))
  | fuel + 1, child, input, curr, k + 1, caps =>
    match matchF fuel child input curr with
    | .ok mr =>
      if ¬ mr.success then .ok none
      else phase1F fuel child input mr.endPos k (mergeCaptures caps mr.captures)
    | .err m => .err m
    | .panicked m => .panicked m
    | .timeout => .timeout
termination_by structural fuel _ _ _ _ _ => fuel

/-- Second loop of getAllMatchesWithCaptures: extend while below the maximum
(or forever when the maximum is minus one), recording each extension. The Go
source loops without bound when the child keeps matching empty. -/
def phase2F : Nat → Node → List Nat → Nat → Nat → Int → List (List Nat) → List MatchResult → GoResult (List MatchResult)
  | 0, _, _, _, _, _, _, _ => .timeout
  | fuel + 1, child, input, curr, count, mx, caps, acc =>
    if ¬ (mx = -1 ∨ (count : Int) < mx) then .ok acc
    else
      match matchF fuel child input curr with
      | .ok mr =>
        if ¬ mr.success then .ok acc
        else
          let caps1 := mergeCaptures caps mr.captures
          phase2F fuel child input mr.endPos (count + 1) mx caps1 (acc ++ [⟨mr.endPos, caps1⟩])
      | .err m => .err m
      | .panicked m => .panicked m
      | .timeout => .timeout
termination_by structural fuel _ _ _ _ _ _ _ => fuel

end

/-- strings.HasPrefix(pattern, caret) as used by the drivers. -/
def startsWithCaret (pattern : List Nat) : Bool := pattern.head? = some (ch '^')

/-- Shared driver epilogue of MatchAST and MatchASTHybrid: group 0 becomes
the entire match; an empty capture vector becomes the singleton list. -/
def buildCaptures (input : List Nat) (p endPos : Nat) (resultCaps : List (List Nat)) : List (List Nat) :=
  let entireMatch := sliceB input p endPos
  match resultCaps with
  | [] => [entireMatch]
  | _ => resultCaps.set 0 entireMatch

/-- Scan loop of MatchAST over candidate start positions, also exposing the
position at which the backtracking evaluator succeeded. -/
def matchASTScanF (fuel : Nat) (ast : Node) (input : List Nat) :
    List Nat → GoResult (Option (Nat × List (List Nat)))
  | [] => .ok none
  | i :: rest =>
    match matchF fuel ast input i with
    | .ok mr =>
      if mr.success then .ok (some (i, buildCaptures input i mr.endPos mr.captures))
      else matchASTScanF fuel ast input rest
    | .err m => .err m
    | .panicked m => .panicked m
    | .timeout => .timeout

/-- MatchAST from ast_tagged.go with the matched scan position exposed:
anchored patterns run the backtracking evaluator once at position 0, all
others at positions 0, 1, ..., len(input)-1. -/
def MatchASTScan (fuel : Nat) (input pattern : List Nat) : GoResult (Option (Nat × List (List Nat))) :=
  match parse pattern with
  | .ok (ast, _) =>
    if startsWithCaret pattern then
      match matchF fuel ast input 0 with
      | .ok mr =>
        if mr.success then .ok (some (0, buildCaptures input 0 mr.endPos mr.captures))
        else .ok none
      | .err m => .err m
      | .panicked m => .panicked m
      | .timeout => .timeout
    else matchASTScanF fuel ast input (List.range input.length)
  | .err m => .err m
  | .panicked m => .panicked m
  | .timeout => .timeout

/-- MatchAST as the source returns it: (matched, captures). -/
def MatchAST (fuel : Nat) (input pattern : List Nat) : GoResult (Bool × Option (List (List Nat))) :=
  match MatchASTScan fuel input pattern with
  | .ok (some (_, caps)) => .ok (true, some caps)
  | .ok none => .ok (false, none)
  | .err m => .err m
  | .panicked m => .panicked m
  | .timeout => .timeout

/-- Scan loop of MatchASTHybrid: at each candidate position run matchAll and
take the first endpoint of a non-empty result list. -/
def hybridScanF (fuel : Nat) (ast : Node) (input : List Nat) (caps0 : List (List Nat)) :
    List Nat → GoResult (Option (Nat × List (List Nat)))
  | [] => .ok none
  | p :: ps =>
    match matchAllF fuel ast input p caps0 with
    | none => .timeout
    | some [] => hybridScanF fuel ast input caps0 ps
    | some (r :: _) => .ok (some (p, buildCaptures input p r.endPos r.captures))

/-- MatchASTHybrid from ast_tagged.go with the matched scan position exposed.
Candidate positions: 0 alone when the pattern starts with a caret, otherwise
0, 1, ..., len(input)-1 (empty for empty input). -/
def MatchASTHybridScan (fuel : Nat) (input pattern : List Nat) : GoResult (Option (Nat × List (List Nat))) :=
  match parse pattern with
  | .ok (ast, numGroups) =>
    let initCaptures := List.replicate numGroups ([] : List Nat)
    let positions := if startsWithCaret pattern then [0] else List.range input.length
    hybridScanF fuel ast input initCaptures positions
  | .err m => .err m
  | .panicked m => .panicked m
  | .timeout => .timeout

/-- MatchASTHybrid as the source returns it: (matched, captures). -/
def MatchASTHybrid (fuel : Nat) (input pattern : List Nat) : GoResult (Bool × Option (List (List Nat))) :=
  match MatchASTHybridScan fuel input pattern with
  | .ok (some (_, caps)) => .ok (true, some caps)
  | .ok none => .ok (false, none)
  | .err m => .err m
  | .panicked m => .panicked m
  | .timeout => .timeout

end Ast

namespace Nfa

/-- CaptureTag from part_001: entering or exiting a capture group. -/
structure CaptureTag where
  groupID : Nat
  isStart : Bool
deriving DecidableEq, Repr

/-- Matcher variants from part_001. -/
inductive Matcher where
  | literal (symbol : Nat)
  | epsilon
  | captureEpsilon (tags : List CaptureTag)
  | charClass (name : List Nat) (chars : List Nat) (negated : Bool)
  | dot
  | backRef (groupID : Nat)
deriving DecidableEq, Repr

/-- Transition: a labeled edge; the target state is referenced by id. -/
structure Transition where
  target : Nat
  matcher : Matcher
deriving DecidableEq, Repr

/-- State contents: accept flag and ordered outgoing transitions. The id is
the key in the store. -/
structure StateData where
  isAccept : Bool
  transitions : List Transition
deriving DecidableEq, Repr

/-- The state graph: Go holds *State pointers that are mutated during
construction; the model is an association list keyed by state id. -/
abbrev Store := List (Nat × StateData)

/-- Dereference a state id (total; ids produced by NewState always exist). -/
def getState (store : Store) (id : Nat) : StateData := (store.lookup id).getD ⟨false, []⟩

/-- Mutate the state with the given id. -/
def updateState (store : Store) (id : Nat) (f : StateData → StateData) : Store :=
  store.map fun kv => if kv.1 = id then (kv.1, f kv.2) else kv

/-- Thompson-construction state: the state-id counter (the Go source keeps it
in a process-wide global, last-used starting at -1; here counter is the next
id to hand out, so the first id is 0 as in Go) and the state graph. -/
structure Builder where
  counter : Nat
  store : Store
deriving DecidableEq, Repr

/-- NewState from part_001: allocate a fresh non-accepting state. -/
def NewState (b : Builder) : Nat × Builder :=
  (b.counter, ⟨b.counter + 1, b.store ++ [(b.counter, ⟨false, []⟩)]⟩)

/-- State.AddTransition. -/
def AddTransition (b : Builder) (src : Nat) (t : Transition) : Builder :=
  { b with store := updateState b.store src fun s => { s with transitions := s.transitions ++ [t] } }

/-- Assignment to State.IsAccept. -/
def SetAccept (b : Builder) (id : Nat) (v : Bool) : Builder :=
  { b with store := updateState b.store id fun s => { s with isAccept := v } }

/-- NFA fragment: start and accept state ids. -/
structure NFA where
  start : Nat
  accept : Nat
deriving DecidableEq, Repr

/-- NFA.Alternate from part_001. -/
def Alternate (b : Builder) (nfa1 nfa2 : NFA) : NFA × Builder :=
  let (q0, b1) := NewState b
  let (q1, b2) := NewState b1
  let b3 := SetAccept b2 q1 true
  let b4 := AddTransition b3 q0 ⟨nfa1.start, .epsilon⟩
  let b5 := AddTransition b4 q0 ⟨nfa2.start, .epsilon⟩
  let b6 := AddTransition b5 nfa1.accept ⟨q1, .epsilon⟩
  let b7 := AddTransition b6 nfa2.accept ⟨q1, .epsilon⟩
  let b8 := SetAccept b7 nfa1.accept false
  let b9 := SetAccept b8 nfa2.accept false
  (⟨q0, q1⟩, b9)

/-- NFAParser.buildKleeneStar. -/
def buildKleeneStar (b : Builder) (nfa : NFA) : NFA × Builder :=
  let (q0, b1) := NewState b
  let (q3, b2) := NewState b1
  let b3 := SetAccept b2 q3 true
  let b4 := AddTransition b3 q0 ⟨nfa.start, .epsilon⟩
  let b5 := AddTransition b4 q0 ⟨q3, .epsilon⟩
  let b6 := AddTransition b5 nfa.accept ⟨nfa.start, .epsilon⟩
  let b7 := AddTransition b6 nfa.accept ⟨q3, .epsilon⟩
  let b8 := SetAccept b7 nfa.accept false
  (⟨q0, q3⟩, b8)

/-- NFAParser.buildKleenePlus. -/
def buildKleenePlus (b : Builder) (atom : NFA) : NFA × Builder :=
  let (q0, b1) := NewState b
  let (q3, b2) := NewState b1
  let b3 := SetAccept b2 q3 true
  let b4 := AddTransition b3 q0 ⟨atom.start, .epsilon⟩
  let b5 := AddTransition b4 atom.accept ⟨atom.start, .epsilon⟩
  let b6 := AddTransition b5 atom.accept ⟨q3, .epsilon⟩
  let b7 := SetAccept b6 atom.accept false
  (⟨q0, q3⟩, b7)

/-- NFAParser.buildOptional. -/
def buildOptional (b : Builder) (atom : NFA) : NFA × Builder :=
  let (q0, b1) := NewState b
  let (q3, b2) := NewState b1
  let b3 := SetAccept b2 q3 true
  let b4 := AddTransition b3 q0 ⟨q3, .epsilon⟩
  let b5 := AddTransition b4 q0 ⟨atom.start, .epsilon⟩
  let b6 := AddTransition b5 atom.accept ⟨q3, .epsilon⟩
  let b7 := SetAccept b6 atom.accept false
  (⟨q0, q3⟩, b7)

/-- NFA.Concatenate. -/
def Concatenate (b : Builder) (nfa1 nfa2 : NFA) : NFA × Builder :=
  let b1 := AddTransition b nfa1.accept ⟨nfa2.start, .epsilon⟩
  let b2 := SetAccept b1 nfa1.accept false
  (⟨nfa1.start, nfa2.accept⟩, b2)

/-- NFAParser.buildLiteralNFA. -/
def buildLiteralNFA (b : Builder) (symbol : Nat) : NFA × Builder :=
  let (q0, b1) := NewState b
  let (q1, b2) := NewState b1
  let b3 := SetAccept b2 q1 true
  let b4 := AddTransition b3 q0 ⟨q1, .literal symbol⟩
  (⟨q0, q1⟩, b4)

/-- NFAParser.buildCharClassNFA. -/
def buildCharClassNFA (b : Builder) (name chars : List Nat) (negated : Bool) : NFA × Builder :=
  let (q0, b1) := NewState b
  let (q1, b2) := NewState b1
  let b3 := SetAccept b2 q1 true
  let b4 := AddTransition b3 q0 ⟨q1, .charClass name chars negated⟩
  (⟨q0, q1⟩, b4)

/-- NFAParser.buildDotNFA. -/
def buildDotNFA (b : Builder) : NFA × Builder :=
  let (q0, b1) := NewState b
  let (q1, b2) := NewState b1
  let b3 := SetAccept b2 q1 true
  let b4 := AddTransition b3 q0 ⟨q1, .dot⟩
  (⟨q0, q1⟩, b4)

/-- NFAParser.buildBackReference. -/
def buildBackReference (b : Builder) (groupID : Nat) : NFA × Builder :=
  let (q0, b1) := NewState b
  let (q1, b2) := NewState b1
  let b3 := SetAccept b2 q1 true
  let b4 := AddTransition b3 q0 ⟨q1, .backRef groupID⟩
  (⟨q0, q1⟩, b4)

/-- NFAParser cursor and construction state bundled: pattern, position, next
group id, and the Thompson builder (counter plus store). -/
structure NP where
  pattern : List Nat
  pos : Nat
  nextGroupID : Nat
  counter : Nat
  store : Store
deriving DecidableEq, Repr

/-- NFAParser.peek. -/
def NP.peek (p : NP) : Nat := (p.pattern.get? p.pos).getD 0

/-- NFAParser.advance. -/
def NP.advance (p : NP) : Nat × NP :=
  match p.pattern.get? p.pos with
  | some c => (c, { p with pos := p.pos + 1 })
  | none => (0, p)

/-- NFAParser.isEOF. -/
def NP.isEOF (p : NP) : Bool := p.pattern.length ≤ p.pos

/-- Builder view of the parser state. -/
def NP.builder (p : NP) : Builder := ⟨p.counter, p.store⟩

/-- Write a builder back into the parser state. -/
def NP.withBuilder (p : NP) (b : Builder) : NP :=
  { p with counter := b.counter, store := b.store }

/-- isQuantifier from part_001. -/
def isQuantifier (c : Nat) : Bool := c = ch '*' ∨ c = ch '+' ∨ c = ch '?'

/-- isDigit from part_001. -/
def isDigit (c : Nat) : Bool := ch '0' ≤ c ∧ c ≤ ch '9'

/-- Digit-collection loop of parseBackreferenceGroupID, structural on fuel;
every iteration advances the cursor so the fuel below always suffices. -/
def backrefDigitsLoopF : Nat → NP → List Nat → List Nat × NP
  | 0, p, acc => (acc, p)
  | fuel + 1, p, acc =>
    match p.pattern.get? p.pos with
    | none => (acc, p)
    | some c =>
      if isDigit c then backrefDigitsLoopF fuel { p with pos := p.pos + 1 } (acc ++ [c])
      else (acc, p)

/-- Digit-collection loop of parseBackreferenceGroupID. -/
def backrefDigitsLoop (p : NP) (acc : List Nat) : List Nat × NP :=
  backrefDigitsLoopF (p.pattern.length - p.pos + 1) p acc

/-- Decimal value of a digit string (the strconv.Atoi of the source, which
cannot fail here because only digit bytes are collected). -/
def natOfDigits (ds : List Nat) : Nat := ds.foldl (fun acc d => acc * 10 + (d - ch '0')) 0

/-- NFAParser.parseBackreferenceGroupID: read the remaining digits after the
first, reject group 0. -/
def parseBackreferenceGroupID (p : NP) (digit : Nat) : GoResult (Nat × NP) :=
  let (ds, p1) := backrefDigitsLoop p [digit]
  let groupID := natOfDigits ds
  if groupID = 0 then .err "invalid backreference"
  else .ok (groupID, p1)

/-- Byte-collection loop of NFAParser.parseCharClass, structural on fuel;
every iteration advances the cursor so the fuel below always suffices. -/
def classCharsNF : Nat → NP → List Nat → List Nat × NP
  | 0, p, acc => (acc, p)
  | fuel + 1, p, acc =>
    match p.pattern.get? p.pos with
    | none => (acc, p)
    | some c =>
      if c = ch ']' then (acc, p)
      else classCharsNF fuel { p with pos := p.pos + 1 } (acc ++ [c])

/-- Byte-collection loop of NFAParser.parseCharClass. -/
def classCharsN (p : NP) (acc : List Nat) : List Nat × NP :=
  classCharsNF (p.pattern.length - p.pos + 1) p acc

/-- NFAParser.parseCharClass: optional leading caret negates; raw bytes until
the required closing bracket; the class name is the bracketed byte list. -/
def parseCharClassN (p : NP) : GoResult (NFA × NP) :=
  let (negated, p1) :=
    if p.peek = ch '^' then (true, (p.advance).2) else (false, p)
  let (chars, p2) := classCharsN p1 []
  if p2.isEOF then .err "expecting ]"
  else
    let p3 := (p2.advance).2
    let name := [ch '['] ++ chars ++ [ch ']']
    let (nfa, b) := buildCharClassNFA p3.builder name chars negated
    .ok (nfa, p3.withBuilder b)

/-- NFAParser.parseEscape: d / w / s classes, digits start a backreference
(group 0 rejected), anything else is a literal. -/
def parseEscapeN (p : NP) : GoResult (NFA × NP) :=
  let (symbol, p1) := p.advance
  if symbol = ch 'd' then
    let (nfa, b) := buildCharClassNFA p1.builder (bytes "\\d") (bytes "0123456789") false
    .ok (nfa, p1.withBuilder b)
  else if symbol = ch 'w' then
    let (nfa, b) := buildCharClassNFA p1.builder (bytes "\\w")
      (bytes "abcdefghijklmnopqrstuvwxyzABCDEFGHIJKLMNOPQRSTUVWXYZ0123456789_") false
    .ok (nfa, p1.withBuilder b)
  else if symbol = ch 's' then
    let (nfa, b) := buildCharClassNFA p1.builder (bytes "\\s") (bytes " \t\n\r\x0c\x0b") false
    .ok (nfa, p1.withBuilder b)
  else if isDigit symbol then
    match parseBackreferenceGroupID p1 symbol with
    | .ok (gid, p2) =>
      let (nfa, b) := buildBackReference p2.builder gid
      .ok (nfa, p2.withBuilder b)
    | .err m => .err m
    | .panicked m => .panicked m
    | .timeout => .timeout
  else
    let (nfa, b) := buildLiteralNFA p1.builder symbol
    .ok (nfa, p1.withBuilder b)

mutual

/-- NFAParser.parseAlternation. -/
def parseAlternationF : Nat → NP → GoResult (NFA × NP)
  | 0, _ => .timeout
  | fuel + 1, p =>
    match parseSequenceF fuel p with
    | .ok (left, p1) => parseAltLoopF fuel left p1
    | .err m => .err m
    | .panicked m => .panicked m
    | .timeout => .timeout

/-- Loop of parseAlternation: fold further alternatives with Alternate. -/
def parseAltLoopF : Nat → NFA → NP → GoResult (NFA × NP)
  | 0, _, _ => .timeout
  | fuel + 1, left, p =>
    if ¬ p.isEOF ∧ p.peek = ch '|' then
      let p1 := (p.advance).2
      match parseSequenceF fuel p1 with
      | .ok (right, p2) =>
        let (n, b) := Alternate p2.builder left right
        parseAltLoopF fuel n (p2.withBuilder b)
      | .err m => .err m
      | .panicked m => .panicked m
      | .timeout => .timeout
    else .ok (left, p)

/-- NFAParser.parseSequence. -/
def parseSequenceF : Nat → NP → GoResult (NFA × NP)
  | 0, _ => .timeout
  | fuel + 1, p =>
    match parseQuantifiedAtomF fuel p with
    | .ok (left, p1) => parseSeqLoopF fuel left p1
    | .err m => .err m
    | .panicked m => .panicked m
    | .timeout => .timeout

/-- Loop of parseSequence: fold further atoms with Concatenate, stopping at a
pipe or a closing parenthesis. -/
def parseSeqLoopF : Nat → NFA → NP → GoResult (NFA × NP)
  | 0, _, _ => .timeout
  | fuel + 1, left, p =>
    if ¬ p.isEOF ∧ p.peek ≠ ch '|' ∧ p.peek ≠ ch ')' then
      match parseQuantifiedAtomF fuel p with
      | .ok (right, p1) =>
        let (n, b) := Concatenate p1.builder left right
        parseSeqLoopF fuel n (p1.withBuilder b)
      | .err m => .err m
      | .panicked m => .panicked m
      | .timeout => .timeout
    else .ok (left, p)

/-- NFAParser.parseQuantifiedAtom: an atom optionally wrapped by a Kleene
star, plus or optional construction. The source reads but ignores a lazy
trailing question mark (the code is commented out there). -/
def parseQuantifiedAtomF : Nat → NP → GoResult (NFA × NP)
  | 0, _ => .timeout
  | fuel + 1, p =>
    match parseAtomNF fuel p with
    | .ok (atom, p1) =>
      if p1.isEOF ∨ ¬ isQuantifier p1.peek then .ok (atom, p1)
      else
        let (c, p2) := p1.advance
        if c = ch '*' then
          let (n, b) := buildKleeneStar p2.builder atom
          .ok (n, p2.withBuilder b)
        else if c = ch '+' then
          let (n, b) := buildKleenePlus p2.builder atom
          .ok (n, p2.withBuilder b)
        else if c = ch '?' then
          let (n, b) := buildOptional p2.builder atom
          .ok (n, p2.withBuilder b)
        else .ok (atom, p2)
    | .err m => .err m
    | .panicked m => .panicked m
    | .timeout => .timeout

/-- NFAParser.parseAtom: backslash, bracket, dot and opening parenthesis are
special; every other byte, including a quantifier byte, builds a literal. -/
def parseAtomNF : Nat → NP → GoResult (NFA × NP)
  | 0, _ => .timeout
  | fuel + 1, p =>
    if p.isEOF then .err "unexpected end of pattern"
    else
      let (symbol, p1) := p.advance
      if symbol = ch '\\' then parseEscapeN p1
      else if symbol = ch '[' then parseCharClassN p1
      else if symbol = ch '.' then
        let (n, b) := buildDotNFA p1.builder
        .ok (n, p1.withBuilder b)
      else if symbol = ch '(' then parseGroupNF fuel p1
      else
        let (n, b) := buildLiteralNFA p1.builder symbol
        .ok (n, p1.withBuilder b)

/-- NFAParser.parseGroup: allocate the group id at the opening parenthesis,
parse the body, require the closing parenthesis (the source checks peek
before its EOF check, so the EOF branch is unreachable but mirrored), then
wrap the fragment in tagged capture epsilon transitions. -/
def parseGroupNF : Nat → NP → GoResult (NFA × NP)
  | 0, _ => .timeout
  | fuel + 1, p =>
    let currGroupID := p.nextGroupID
    let p0 := { p with nextGroupID := p.nextGroupID + 1 }
    match parseAlternationF fuel p0 with
    | .ok (nfa, p1) =>
      if p1.peek ≠ ch ')' then .err "expected )"
      else if p1.isEOF then .err "unexpected EOF"
      else
        let p2 := (p1.advance).2
        let (q0, b1) := NewState p2.builder
        let (q1, b2) := NewState b1
        let b3 := SetAccept b2 q1 (getState b2.store nfa.accept).isAccept
        let b4 := AddTransition b3 q0 ⟨nfa.start, .captureEpsilon [⟨currGroupID, true⟩]⟩
        let b5 := AddTransition b4 nfa.accept ⟨q1, .captureEpsilon [⟨currGroupID, false⟩]⟩
        let b6 := SetAccept b5 nfa.accept false
        .ok (⟨q0, q1⟩, p2.withBuilder b6)
    | .err m => .err m
    | .panicked m => .panicked m
    | .timeout => .timeout

end

/-- Fuel that lets the NFA parser consume a whole pattern. -/
def nfaParseFuel (pattern : List Nat) : Nat := 8 * pattern.length + 16

/-- NFAParser.ParseNFA: rejects the empty pattern, then parses an
alternation. Trailing unconsumed input is ignored, as in the source. -/
def ParseNFA (p : NP) : GoResult (NFA × NP) :=
  if p.pattern = [] then .err "empty pattern"
  else parseAlternationF (nfaParseFuel p.pattern) p

end Nfa

namespace Nfa

/-- CaptureGroup from part_001: a captured substring. -/
structure CaptureGroup where
  start : Nat
  endPos : Nat
  text : List Nat
deriving DecidableEq, Repr

/-- ActiveCapture: an opened, not yet closed group. -/
structure ActiveCapture where
  groupID : Nat
  start : Nat
deriving DecidableEq, Repr

/-- ExecutionContext: per-path simulator snapshot. CompletedGroups is a Go
map modelled as an association list with insert-or-replace update. -/
structure ExecutionContext where
  state : Nat
  pos : Nat
  activeCaptures : List ActiveCapture
  completedGroups : List (Nat × CaptureGroup)
deriving DecidableEq, Repr

/-- Map write m[k] = v: replace the binding in place or append it. -/
def setGroup : List (Nat × CaptureGroup) → Nat → CaptureGroup → List (Nat × CaptureGroup)
  | [], k, v => [(k, v)]
  | kv :: rest, k, v => if kv.1 = k then (k, v) :: rest else kv :: setGroup rest k v

/-- Matcher.IsEpsilon. -/
def matcherIsEpsilon : Matcher → Bool
  | .epsilon => true
  | .captureEpsilon _ => true
  | _ => false

/-- Matcher.Match. The BackRefMatcher case is the source placeholder that
always answers true: real backreference matching happens in deltaFunction. -/
def matcherMatch (m : Matcher) (input : List Nat) (pos : Nat) : Bool :=
  match m with
  | .literal s =>
    match input.get? pos with
    | some b => s = b
    | none => false
  | .epsilon => true
  | .captureEpsilon _ => true
  | .charClass _ cs neg =>
    match input.get? pos with
    | some b => cs.contains b ≠ neg
    | none => false
  | .dot =>
    match input.get? pos with
    | some b => b ≠ ch '\n'
    | none => false
  | .backRef _ => true

/-- Helper for the end-tag search of ApplyTags: the most recent (last)
active capture with the given group id, and the list without it. -/
def findRemoveLast : List ActiveCapture → Nat → Option (ActiveCapture × List ActiveCapture)
  | [], _ => none
  | x :: xs, gid =>
    match findRemoveLast xs gid with
    | some (y, ys) => some (y, x :: ys)
    | none => if x.groupID = gid then some (x, xs) else none

/-- ExecutionContext.ApplyTags: start tags push an active capture at the
current position; end tags close the most recent matching start, recording
the captured text; an end tag without a matching start is a no-op. -/
def ApplyTags (ctx : ExecutionContext) (tags : List CaptureTag) (input : List Nat) : ExecutionContext :=
  tags.foldl
    (fun ex tag =>
      if tag.isStart then
        { ex with activeCaptures := ex.activeCaptures ++ [⟨tag.groupID, ex.pos⟩] }
      else
        match findRemoveLast ex.activeCaptures tag.groupID with
        | some (cap, rest) =>
          { ex with
            completedGroups :=
              setGroup ex.completedGroups cap.groupID ⟨cap.start, ex.pos, sliceB input cap.start ex.pos⟩,
            activeCaptures := rest }
        | none => ex)
    ctx

/-- Contexts produced from one context by one transition in deltaFunction.
A backreference advances by the recorded text when it matches the upcoming
input; any other non-epsilon matcher advances by one byte. The
CaptureEpsilonMatcher tag application in the non-epsilon branch mirrors dead
source code: such a matcher is an epsilon matcher and never reaches it. -/
def deltaTrans (ctx : ExecutionContext) (input : List Nat) (t : Transition) : List ExecutionContext :=
  match t.matcher with
  | .backRef gid =>
    match ctx.completedGroups.lookup gid with
    | none => []
    | some g =>
      let endPos := ctx.pos + g.text.length
      if input.length < endPos then []
      else if g.text = sliceB input ctx.pos endPos then
        [{ ctx with state := t.target, pos := ctx.pos + g.text.length }]
      else []
  | m =>
    if ¬ matcherIsEpsilon m ∧ matcherMatch m input ctx.pos then
      let c1 := { ctx with state := t.target, pos := ctx.pos + 1 }
      let c2 :=
        match m with
        | .captureEpsilon tags => ApplyTags c1 tags input
        | _ => c1
      [c2]
    else []

/-- deltaFunction from part_001: all successors of all contexts, in context
order then transition order. -/
def deltaFunction (store : Store) (contexts : List ExecutionContext) (input : List Nat) :
    List ExecutionContext :=
  contexts.foldl
    (fun acc ctx =>
      acc ++ (getState store ctx.state).transitions.foldl
        (fun acc2 t => acc2 ++ deltaTrans ctx input t) [])
    []

/-- Clone-and-tag of an epsilon successor in the closure DFS. -/
def applyIfCapture (c : ExecutionContext) (m : Matcher) (input : List Nat) : ExecutionContext :=
  match m with
  | .captureEpsilon tags => ApplyTags c tags input
  | _ => c

/-- Total number of transitions in the store; bounds the work of the closure
DFS because each state is expanded at most once. -/
def totalTransitions (store : Store) : Nat :=
  (store.map fun kv => kv.2.transitions.length).sum

/-- DFS worklist loop of epsilonClosure. The stack models the Go slice with
its top at the list head (Go pushes and pops at the slice end). Fuel bounds
the pop count; the fuel chosen by epsilonClosure always suffices because each
pushed context comes from expanding a state not expanded before. -/
def closureAuxF (store : Store) (input : List Nat) :
    Nat → List Nat → List ExecutionContext → List ExecutionContext → List ExecutionContext
  | 0, _, _, acc => acc
  | fuel + 1, visited, stack, acc =>
    match stack with
    | [] => acc
    | current :: rest =>
      if visited.contains current.state then closureAuxF store input fuel visited rest acc
      else
        let visited1 := current.state :: visited
        let acc1 := acc ++ [current]
        let stack1 :=
          (getState store current.state).transitions.foldl
            (fun st t =>
              if matcherIsEpsilon t.matcher ∧ ¬ visited1.contains t.target then
                applyIfCapture { current with state := t.target } t.matcher input :: st
              else st)
            rest
        closureAuxF store input fuel visited1 stack1 acc1

/-- Fuel sufficient for the closure DFS: initial stack plus total pushes. -/
def closureFuel (store : Store) (contexts : List ExecutionContext) : Nat :=
  contexts.length + totalTransitions store + 1

/-- epsilonClosure from part_001: contexts reachable through epsilon
transitions only, deduplicated by state id, keeping the first context that
reaches each state in the DFS order. The initial stack is the reversed
context list because Go pops the slice from its end. -/
def epsilonClosure (store : Store) (contexts : List ExecutionContext) (input : List Nat) :
    List ExecutionContext :=
  closureAuxF store input (closureFuel store contexts) [] contexts.reverse []

/-- Same DFS as closureAuxF but recording every popped context, including
the ones skipped as already visited: the visit trace of the closure. -/
def closureTraceAuxF (store : Store) (input : List Nat) :
    Nat → List Nat → List ExecutionContext → List ExecutionContext → List ExecutionContext
  | 0, _, _, trace => trace
  | fuel + 1, visited, stack, trace =>
    match stack with
    | [] => trace
    | current :: rest =>
      if visited.contains current.state then
        closureTraceAuxF store input fuel visited rest (trace ++ [current])
      else
        let visited1 := current.state :: visited
        let stack1 :=
          (getState store current.state).transitions.foldl
            (fun st t =>
              if matcherIsEpsilon t.matcher ∧ ¬ visited1.contains t.target then
                applyIfCapture { current with state := t.target } t.matcher input :: st
              else st)
            rest
        closureTraceAuxF store input fuel visited1 stack1 (trace ++ [current])

/-- Visit trace of epsilonClosure: every context the DFS pops, in order. -/
def closureTrace (store : Store) (contexts : List ExecutionContext) (input : List Nat) :
    List ExecutionContext :=
  closureTraceAuxF store input (closureFuel store contexts) [] contexts.reverse []

/-- Keep, for each state id, the first context of the list that carries it
(states in `seen` are dropped entirely). -/
def keepFirstByState (seen : List Nat) : List ExecutionContext → List ExecutionContext
  | [] => []
  | c :: cs =>
    if seen.contains c.state then keepFirstByState seen cs
    else c :: keepFirstByState (c.state :: seen) cs

/-- MatchResult from part_001. -/
structure MatchResult where
  matched : Bool
  captureGroups : List (Nat × CaptureGroup)
deriving DecidableEq, Repr

/-- Group 0 write performed on every accepting context during the accept
scan of NFA.Run. -/
def setGroup0 (input : List Nat) (scanStart : Nat) (ctx : ExecutionContext) : ExecutionContext :=
  { ctx with
    completedGroups :=
      setGroup ctx.completedGroups 0 ⟨scanStart, ctx.pos, sliceB input scanStart ctx.pos⟩ }

/-- Acceptance condition of the accept scan: an accepting state, and when an
end anchor is present the position must be at the end of the input. -/
def acceptOK (store : Store) (hasEnd : Bool) (inputLen : Nat) (ctx : ExecutionContext) : Bool :=
  (getState store ctx.state).isAccept && (!hasEnd || ctx.pos = inputLen)

/-- Main loop of NFA.Run: delta step, emptiness check, epsilon closure,
accept scan (mutating group 0 of every accepting context, as the source
does through map mutation), then repeat. Fuel exhaustion (none) marks a
loop the Go source would run forever. -/
def runLoopF (store : Store) (input : List Nat) (scanStart : Nat) (hasEnd : Bool) :
    Nat → List ExecutionContext → Option MatchResult
  | 0, _ => none
  | fuel + 1, contexts =>
    match deltaFunction store contexts input with
    | [] => some ⟨false, []⟩
    | next =>
      let closed := epsilonClosure store next input
      let closed1 := closed.map fun ctx =>
        if (getState store ctx.state).isAccept then setGroup0 input scanStart ctx else ctx
      match closed1.find? (acceptOK store hasEnd input.length) with
      | some ctx => some ⟨true, ctx.completedGroups⟩
      | none => runLoopF store input scanStart hasEnd fuel closed1

/-- NFA.Run from part_001: a single context at the start state, closed under
epsilon transitions, then the main loop. -/
def RunF (store : Store) (nfa : NFA) (input : List Nat) (pos : Nat) (hasEnd : Bool)
    (fuel : Nat) : Option MatchResult :=
  runLoopF store input pos hasEnd fuel (epsilonClosure store [⟨nfa.start, pos, [], []⟩] input)

/-- Fuel for terminating runs of the main loop: every surviving context
advances its position every iteration except through empty backreference
text, which is exactly the divergent case. -/
def runFuel (store : Store) (input : List Nat) : Nat :=
  (input.length + 2) * (totalTransitions store + store.length + 2) + 2

/-- Scan loop of MatchNFA over candidate start positions. -/
def matchNFAScanF (store : Store) (nfa : NFA) (input : List Nat) (hasEnd : Bool) (fuel : Nat) :
    List Nat → GoResult Bool
  | [] => .ok false
  | i :: rest =>
    match RunF store nfa input i hasEnd fuel with
    | none => .timeout
    | some r => if r.matched then .ok true else matchNFAScanF store nfa input hasEnd fuel rest

/-- MatchNFA from part_001. The source reads pattern[0] before any emptiness
check, so the empty pattern is a runtime panic, not an error return. The
stateCounter argument models the process-wide NewState counter at entry.
Candidate start positions for unanchored patterns are 0, ..., len(input)-1. -/
def MatchNFA (stateCounter : Nat) (input pattern : List Nat) : GoResult Bool :=
  match pattern with
  | [] => .panicked "index out of range"
  | c :: _ =>
    let hasStartAnchor := c = ch '^'
    let hasEndAnchor := pattern.getLast? = some (ch '$')
    let pat1 := if hasStartAnchor then pattern.drop 1 else pattern
    let pat2 := if hasEndAnchor then pat1.dropLast else pat1
    match ParseNFA ⟨pat2, 0, 1, stateCounter, []⟩ with
    | .ok (nfa, np) =>
      let fuel := runFuel np.store input
      if hasStartAnchor then
        match RunF np.store nfa input 0 hasEndAnchor fuel with
        | none => .timeout
        | some r => .ok r.matched
      else matchNFAScanF np.store nfa input hasEndAnchor fuel (List.range input.length)
    | .err m => .err m
    | .panicked m => .panicked m
    | .timeout => .timeout

end Nfa

namespace Ast

mutual

/-- No CaptureNode anywhere in the tree. -/
def noCapture : Node → Bool
  | .seq cs => noCaptureList cs
  | .lit _ => true
  | .charClass _ _ => true
  | .startAnchor => true
  | .endAnchor => true
  | .quant child _ _ _ => noCapture child
  | .dot => true
  | .capture _ _ => false
  | .alternation cs => noCaptureList cs

/-- noCapture over a child list. -/
def noCaptureList : List Node → Bool
  | [] => true
  | c :: cs => noCapture c && noCaptureList cs

end

end Ast

namespace Nfa

/-- Uniform state-id shift of a transition (group ids are not state ids and
stay fixed). -/
def shiftTransition (k : Nat) (t : Transition) : Transition := ⟨t.target + k, t.matcher⟩

/-- Uniform state-id shift of a state graph. -/
def shiftStore (k : Nat) (store : Store) : Store :=
  store.map fun kv => (kv.1 + k, ⟨kv.2.isAccept, kv.2.transitions.map (shiftTransition k)⟩)

/-- Uniform state-id shift of a fragment. -/
def shiftNFA (k : Nat) (n : NFA) : NFA := ⟨n.start + k, n.accept + k⟩

/-- The pattern of the diverging run: a capture group that can complete with
empty text, a backreference to it under a Kleene star, then a literal that
the input never provides. -/
def divPattern : List Nat := bytes "(a?)\\1*c"

/-- The input of the diverging run. -/
def divInput : List Nat := bytes "b"

/-- State graph that ParseNFA builds for divPattern from counter 0 (pinned
by the C2 theorem). -/
def divStore : Store :=
  [(0, ⟨false, [⟨1, .literal (ch 'a')⟩]⟩),
   (1, ⟨false, [⟨3, .epsilon⟩]⟩),
   (2, ⟨false, [⟨3, .epsilon⟩, ⟨0, .epsilon⟩]⟩),
   (3, ⟨false, [⟨5, .captureEpsilon [⟨1, false⟩]⟩]⟩),
   (4, ⟨false, [⟨2, .captureEpsilon [⟨1, true⟩]⟩]⟩),
   (5, ⟨false, [⟨8, .epsilon⟩]⟩),
   (6, ⟨false, [⟨7, .backRef 1⟩]⟩),
   (7, ⟨false, [⟨6, .epsilon⟩, ⟨9, .epsilon⟩]⟩),
   (8, ⟨false, [⟨6, .epsilon⟩, ⟨9, .epsilon⟩]⟩),
   (9, ⟨false, [⟨10, .epsilon⟩]⟩),
   (10, ⟨false, [⟨11, .literal (ch 'c')⟩]⟩),
   (11, ⟨true, []⟩)]

/-- The fragment ParseNFA returns for divPattern. -/
def divNfa : NFA := ⟨4, 11⟩

/-- The context bag the main loop reaches after one iteration on divInput:
group 1 completed with empty text, position stuck at 0. One further
iteration reproduces exactly this bag, so the loop never exits. -/
def divBag : List ExecutionContext :=
  [⟨7, 0, [], [(1, ⟨0, 0, []⟩)]⟩,
   ⟨9, 0, [], [(1, ⟨0, 0, []⟩)]⟩,
   ⟨10, 0, [], [(1, ⟨0, 0, []⟩)]⟩,
   ⟨6, 0, [], [(1, ⟨0, 0, []⟩)]⟩]

end Nfa


namespace Nfa

/-- State graph ParseNFA builds for the pattern (a) from counter 0. -/
def groupAStore : Store :=
  [(0, ⟨false, [⟨1, .literal (ch 'a')⟩]⟩),
   (1, ⟨false, [⟨3, .captureEpsilon [⟨1, false⟩]⟩]⟩),
   (2, ⟨false, [⟨0, .captureEpsilon [⟨1, true⟩]⟩]⟩),
   (3, ⟨true, []⟩)]

end Nfa


namespace Nfa

/-- Parser state after consuming "(a?)" of divPattern (stage 1). -/
def divNP1 : NP := ⟨divPattern, 4, 2, 6,
  [(0, ⟨false, [⟨1, .literal 97⟩]⟩),
   (1, ⟨false, [⟨3, .epsilon⟩]⟩),
   (2, ⟨false, [⟨3, .epsilon⟩, ⟨0, .epsilon⟩]⟩),
   (3, ⟨false, [⟨5, .captureEpsilon [⟨1, false⟩]⟩]⟩),
   (4, ⟨false, [⟨2, .captureEpsilon [⟨1, true⟩]⟩]⟩),
   (5, ⟨true, []⟩)]⟩

/-- Parser state after also consuming the starred backreference (stage 2). -/
def divNP2 : NP := ⟨divPattern, 7, 2, 10,
  [(0, ⟨false, [⟨1, .literal 97⟩]⟩),
   (1, ⟨false, [⟨3, .epsilon⟩]⟩),
   (2, ⟨false, [⟨3, .epsilon⟩, ⟨0, .epsilon⟩]⟩),
   (3, ⟨false, [⟨5, .captureEpsilon [⟨1, false⟩]⟩]⟩),
   (4, ⟨false, [⟨2, .captureEpsilon [⟨1, true⟩]⟩]⟩),
   (5, ⟨true, []⟩),
   (6, ⟨false, [⟨7, .backRef 1⟩]⟩),
   (7, ⟨false, [⟨6, .epsilon⟩, ⟨9, .epsilon⟩]⟩),
   (8, ⟨false, [⟨6, .epsilon⟩, ⟨9, .epsilon⟩]⟩),
   (9, ⟨true, []⟩)]⟩

/-- Stage 2 state after concatenating the group and star fragments. -/
def divNP3 : NP := ⟨divPattern, 7, 2, 10,
  [(0, ⟨false, [⟨1, .literal 97⟩]⟩),
   (1, ⟨false, [⟨3, .epsilon⟩]⟩),
   (2, ⟨false, [⟨3, .epsilon⟩, ⟨0, .epsilon⟩]⟩),
   (3, ⟨false, [⟨5, .captureEpsilon [⟨1, false⟩]⟩]⟩),
   (4, ⟨false, [⟨2, .captureEpsilon [⟨1, true⟩]⟩]⟩),
   (5, ⟨false, [⟨8, .epsilon⟩]⟩),
   (6, ⟨false, [⟨7, .backRef 1⟩]⟩),
   (7, ⟨false, [⟨6, .epsilon⟩, ⟨9, .epsilon⟩]⟩),
   (8, ⟨false, [⟨6, .epsilon⟩, ⟨9, .epsilon⟩]⟩),
   (9, ⟨true, []⟩)]⟩

/-- Parser state after also consuming the final literal (stage 3). -/
def divNP4 : NP := ⟨divPattern, 8, 2, 12,
  [(0, ⟨false, [⟨1, .literal 97⟩]⟩),
   (1, ⟨false, [⟨3, .epsilon⟩]⟩),
   (2, ⟨false, [⟨3, .epsilon⟩, ⟨0, .epsilon⟩]⟩),
   (3, ⟨false, [⟨5, .captureEpsilon [⟨1, false⟩]⟩]⟩),
   (4, ⟨false, [⟨2, .captureEpsilon [⟨1, true⟩]⟩]⟩),
   (5, ⟨false, [⟨8, .epsilon⟩]⟩),
   (6, ⟨false, [⟨7, .backRef 1⟩]⟩),
   (7, ⟨false, [⟨6, .epsilon⟩, ⟨9, .epsilon⟩]⟩),
   (8, ⟨false, [⟨6, .epsilon⟩, ⟨9, .epsilon⟩]⟩),
   (9, ⟨true, []⟩),
   (10, ⟨false, [⟨11, .literal 99⟩]⟩),
   (11, ⟨true, []⟩)]⟩

/-- Final parser state of ParseNFA on divPattern: the graph is divStore. -/
def divNPF : NP := ⟨divPattern, 8, 2, 12, divStore⟩

end Nfa

/-
Theorems. Claim theorems are named c1_... through c10_...; auxiliary lemmas
carry descriptive names and are shared only where the gate allows.
-/

/-- C4 (code bug): with an empty pattern, MatchNFA reads pattern[0] before
any emptiness check and panics with an index-out-of-range error instead of
returning the empty-pattern error value; the two tree-engine entry points do
return the error. -/
theorem c4_empty_pattern_panics :
    (∀ sc input, Nfa.MatchNFA sc input [] = .panicked "index out of range")
    ∧ (∀ fuel input, Ast.MatchAST fuel input [] = .err "empty pattern")
    ∧ (∀ fuel input, Ast.MatchASTHybrid fuel input [] = .err "empty pattern") :=
  ⟨fun _ _ => rfl, fun _ _ => rfl, fun _ _ => rfl⟩

/-- C5 (code bug): the pattern a* parses successfully to a bare
QuantifierNode, and evaluating it through MatchAST reaches the
QuantifierNode.match panic "Should not be called": a top-level quantifier is
not wrapped in a SequenceNode, so the sequence special-casing never sees it. -/
theorem c5_quantifier_match_panics :
    Ast.parse (bytes "a*") = .ok (.quant (.lit (ch 'a')) 0 (-1) true, 1)
    ∧ Ast.MatchAST 10 (bytes "b") (bytes "a*") = .panicked "Should not be called" :=
  ⟨rfl, rfl⟩

/-- C6 counterexample: a pattern whose first character is a quantifier does
NOT fail to parse; both parsers consume the quantifier byte as a literal. -/
theorem c6_counterexample_leading_quantifier_parses :
    Ast.parse (bytes "*a") = .ok (.seq [.lit (ch '*'), .lit (ch 'a')], 1)
    ∧ Nfa.ParseNFA ⟨bytes "*a", 0, 1, 0, []⟩ =
        .ok (⟨0, 3⟩,
          ⟨bytes "*a", 2, 1, 4,
            [(0, ⟨false, [⟨1, .literal (ch '*')⟩]⟩),
             (1, ⟨false, [⟨2, .epsilon⟩]⟩),
             (2, ⟨false, [⟨3, .literal (ch 'a')⟩]⟩),
             (3, ⟨true, []⟩)]⟩) :=
  ⟨rfl, rfl⟩

/-- C6 (amended): a quantifier byte in atom position is consumed as a
literal by both parsers, so a pattern starting with a quantifier parses
without an unexpected-quantifier error. -/
theorem c6_leading_quantifier_is_literal :
    (∀ fuel (p : Ast.Parser) q, Ast.isQuantifier q = true →
       p.pattern.get? p.pos = some q →
       Ast.parseAtomF (fuel + 1) p = .ok (.lit q, { p with pos := p.pos + 1 }))
    ∧ (∀ fuel (np : Nfa.NP) q, Nfa.isQuantifier q = true →
       np.pattern.get? np.pos = some q →
       Nfa.parseAtomNF (fuel + 1) np =
         (let np1 : Nfa.NP := { np with pos := np.pos + 1 }
          let r := Nfa.buildLiteralNFA np1.builder q
          .ok (r.1, np1.withBuilder r.2))) := by
  constructor
  · intro fuel p q hq hg
    have hq3 : q = ch '*' ∨ q = ch '+' ∨ q = ch '?' := by
      simpa [Ast.isQuantifier] using hq
    have hg2 : p.pattern[p.pos]? = some q := by
      simpa [List.get?_eq_getElem?] using hg
    rcases hq3 with h | h | h <;> subst h <;>
      simp [Ast.parseAtomF, Ast.Parser.advance, hg2, ch]
  · intro fuel np q hq hg
    have hq3 : q = ch '*' ∨ q = ch '+' ∨ q = ch '?' := by
      simpa [Nfa.isQuantifier] using hq
    have hg2 : np.pattern[np.pos]? = some q := by
      simpa [List.get?_eq_getElem?] using hg
    have hlt : np.pos < np.pattern.length := by
      have := List.getElem?_eq_some.mp hg2
      exact this.1
    have hEOF : np.isEOF = false := by
      simp [Nfa.NP.isEOF]
      omega
    rcases hq3 with h | h | h <;> subst h <;>
      simp [Nfa.parseAtomNF, Nfa.NP.advance, hEOF, hg2, ch]

/-- C6 amended witness. -/
theorem c6_leading_quantifier_is_literal_witness :
    Ast.parseAtomF 3 ⟨bytes "*a", 0, 1⟩ = .ok (.lit (ch '*'), ⟨bytes "*a", 1, 1⟩) :=
  c6_leading_quantifier_is_literal.1 2 ⟨bytes "*a", 0, 1⟩ (ch '*') rfl rfl


/-- C10 counterexample: with the process-wide NewState counter of the
source, a second Thompson construction of the same pattern starts where the
first stopped (counter 2 after parsing the one-literal pattern), so the two
automata do not have equal state ids. -/
theorem c10_counterexample_global_counter :
    Nfa.ParseNFA ⟨bytes "a", 0, 1, 0, []⟩ =
      .ok (⟨0, 1⟩, ⟨bytes "a", 1, 1, 2,
        [(0, ⟨false, [⟨1, .literal (ch 'a')⟩]⟩), (1, ⟨true, []⟩)]⟩)
    ∧ Nfa.ParseNFA ⟨bytes "a", 0, 1, 2, []⟩ =
      .ok (⟨2, 3⟩, ⟨bytes "a", 1, 1, 4,
        [(2, ⟨false, [⟨3, .literal (ch 'a')⟩]⟩), (3, ⟨true, []⟩)]⟩)
    ∧ (⟨0, 1⟩ : Nfa.NFA) ≠ ⟨2, 3⟩ :=
  ⟨rfl, rfl, by decide⟩

/-- C10 (amended): the state-id counter is process-wide and persists across
parses; a second construction of the same pattern produces the same
automaton with every state id uniformly shifted by the number of states the
first construction allocated (4 for the one-group pattern), hence not an
identical automaton. -/
theorem c10_second_parse_is_shifted :
    Nfa.ParseNFA ⟨bytes "(a)", 0, 1, 0, []⟩ =
      .ok (⟨2, 3⟩, ⟨bytes "(a)", 3, 2, 4, Nfa.groupAStore⟩)
    ∧ Nfa.ParseNFA ⟨bytes "(a)", 0, 1, 4, []⟩ =
      .ok (Nfa.shiftNFA 4 ⟨2, 3⟩, ⟨bytes "(a)", 3, 2, 8, Nfa.shiftStore 4 Nfa.groupAStore⟩)
    ∧ Nfa.shiftNFA 4 ⟨2, 3⟩ ≠ (⟨2, 3⟩ : Nfa.NFA) :=
  ⟨rfl, by decide, by decide⟩

/-- C1 counterexample: scanning is NOT inclusive of the end-of-input
position. On empty input the unanchored hybrid driver makes no match attempt
and reports false for the pattern x?, even though the evaluator, if invoked
at position 0 = len(input), would return a non-empty endpoint set. -/
theorem c1_counterexample_no_attempt_at_end :
    Ast.MatchASTHybrid 10 [] (bytes "x?") = .ok (false, none)
    ∧ Ast.parse (bytes "x?") = .ok (.quant (.lit (ch 'x')) 0 1 true, 1)
    ∧ Ast.matchAllF 10 (.quant (.lit (ch 'x')) 0 1 true) [] 0 [[]] = some [⟨0, [[]]⟩] :=
  ⟨rfl, rfl, rfl⟩

/-- The parse of divPattern, staged: the capture-group atom. -/
theorem divParse_stage1 :
    Nfa.parseQuantifiedAtomF 78 ⟨Nfa.divPattern, 0, 1, 0, []⟩ = .ok (⟨4, 5⟩, Nfa.divNP1) := by
  decide

/-- The parse of divPattern, staged: the starred backreference atom. -/
theorem divParse_stage2 :
    Nfa.parseQuantifiedAtomF 77 Nfa.divNP1 = .ok (⟨8, 9⟩, Nfa.divNP2) := by decide

/-- The parse of divPattern, staged: the final literal atom. -/
theorem divParse_stage3 :
    Nfa.parseQuantifiedAtomF 76 Nfa.divNP3 = .ok (⟨10, 11⟩, Nfa.divNP4) := by decide

/-- Sequence loop of the divPattern parse: first concatenation step. -/
theorem divParse_loop1 :
    Nfa.parseSeqLoopF 78 ⟨4, 5⟩ Nfa.divNP1 = Nfa.parseSeqLoopF 77 ⟨4, 9⟩ Nfa.divNP3 := by
  rw [show (78 : Nat) = 77 + 1 from rfl]
  conv_lhs => rw [Nfa.parseSeqLoopF]
  rw [if_pos (by decide), divParse_stage2]
  rfl

/-- Sequence loop of the divPattern parse: second concatenation step. -/
theorem divParse_loop2 :
    Nfa.parseSeqLoopF 77 ⟨4, 9⟩ Nfa.divNP3 = Nfa.parseSeqLoopF 76 ⟨4, 11⟩ Nfa.divNPF := by
  rw [show (77 : Nat) = 76 + 1 from rfl]
  conv_lhs => rw [Nfa.parseSeqLoopF]
  rw [if_pos (by decide), divParse_stage3]
  rfl

/-- Sequence loop of the divPattern parse: termination at end of pattern. -/
theorem divParse_loop3 :
    Nfa.parseSeqLoopF 76 ⟨4, 11⟩ Nfa.divNPF = .ok (⟨4, 11⟩, Nfa.divNPF) := by
  rw [show (76 : Nat) = 75 + 1 from rfl]
  conv_lhs => rw [Nfa.parseSeqLoopF]
  rw [if_neg (by decide)]

/-- The sequence level of the divPattern parse. -/
theorem divParse_seq :
    Nfa.parseSequenceF 79 ⟨Nfa.divPattern, 0, 1, 0, []⟩ = .ok (⟨4, 11⟩, Nfa.divNPF) := by
  rw [show (79 : Nat) = 78 + 1 from rfl]
  conv_lhs => rw [Nfa.parseSequenceF]
  rw [divParse_stage1]
  exact divParse_loop1.trans (divParse_loop2.trans divParse_loop3)

/-- ParseNFA builds exactly divStore (inside divNPF) for divPattern. -/
theorem divParse_full :
    Nfa.ParseNFA ⟨Nfa.divPattern, 0, 1, 0, []⟩ = .ok (Nfa.divNfa, Nfa.divNPF) := by
  conv_lhs => rw [Nfa.ParseNFA]
  rw [if_neg (by decide)]
  rw [show Nfa.nfaParseFuel (⟨Nfa.divPattern, 0, 1, 0, []⟩ : Nfa.NP).pattern = 79 + 1 from rfl]
  conv_lhs => rw [Nfa.parseAlternationF]
  rw [divParse_seq]
  rfl

/-- One iteration of the run loop maps the stuck bag to itself: the
zero-length backreference transition keeps firing at position 0, the closure
reproduces the same four contexts, no state is accepting, so the loop only
consumes fuel. -/
theorem divRun_step (f : Nat) :
    Nfa.runLoopF Nfa.divStore Nfa.divInput 0 false (f + 1) Nfa.divBag =
      Nfa.runLoopF Nfa.divStore Nfa.divInput 0 false f Nfa.divBag := rfl

/-- The run loop never returns from the stuck bag, whatever the fuel. -/
theorem divRun_loopnone :
    ∀ f, Nfa.runLoopF Nfa.divStore Nfa.divInput 0 false f Nfa.divBag = none := by
  intro f
  induction f with
  | zero => rfl
  | succ f ih => rw [divRun_step]; exact ih

/-- The first loop iteration from the initial closure reaches the stuck bag. -/
theorem divRun_first (f : Nat) :
    Nfa.RunF Nfa.divStore Nfa.divNfa Nfa.divInput 0 false (f + 1) =
      Nfa.runLoopF Nfa.divStore Nfa.divInput 0 false f Nfa.divBag := rfl

/-- C2 (code bug): the simulator run loop does NOT always halt. For the
pattern (a?)\1*c the group captures the empty string, the backreference
under the star then fires forever without advancing the position, the
context bag never empties and never reaches the accept state, so NFA.Run
loops for every amount of fuel; the Go source runs this loop unboundedly.
The first conjunct pins the automaton to what ParseNFA builds. -/
theorem c2_backref_empty_text_diverges :
    Nfa.ParseNFA ⟨Nfa.divPattern, 0, 1, 0, []⟩ = .ok (Nfa.divNfa, Nfa.divNPF)
    ∧ ∀ fuel, Nfa.RunF Nfa.divStore Nfa.divNfa Nfa.divInput 0 false fuel = none := by
  refine ⟨divParse_full, ?_⟩
  intro fuel
  cases fuel with
  | zero => rfl
  | succ f => rw [divRun_first]; exact divRun_loopnone f

/-- C8 (confirmed): at any in-range position, the tree engine Dot node
matches the byte unconditionally (newline included), while the automaton
engine DotMatcher matches exactly the bytes other than newline; both fail
out of range. -/
theorem c8_dot_newline :
    (∀ fuel input pos caps b, input.get? pos = some b →
       Ast.matchAllF (fuel + 1) .dot input pos caps = some [⟨pos + 1, caps⟩])
    ∧ (∀ input pos b, input.get? pos = some b →
       (Nfa.matcherMatch .dot input pos = true ↔ b ≠ ch '\n'))
    ∧ (∀ fuel input pos caps, input.length ≤ pos →
       Ast.matchAllF (fuel + 1) .dot input pos caps = some [])
    ∧ (∀ input pos, input.length ≤ pos → Nfa.matcherMatch .dot input pos = false) := by
  refine ⟨?_, ?_, ?_, ?_⟩
  · intro fuel input pos caps b hb
    simp only [Ast.matchAllF]
    rw [hb]
  · intro input pos b hb
    simp only [Nfa.matcherMatch]
    rw [hb]
    simp
  · intro fuel input pos caps h
    simp only [Ast.matchAllF]
    rw [List.get?_eq_none.mpr h]
  · intro input pos h
    simp only [Nfa.matcherMatch]
    rw [List.get?_eq_none.mpr h]

/-- C8 witness: at the newline byte the tree Dot yields an endpoint while
the automaton DotMatcher answers false. -/
theorem c8_dot_newline_witness :
    Ast.matchAllF 3 .dot [10] 0 [[]] = some [⟨1, [[]]⟩]
    ∧ Nfa.matcherMatch .dot [10] 0 = false := by
  constructor
  · exact c8_dot_newline.1 2 [10] 0 [[]] 10 rfl
  · have h := (c8_dot_newline.2.1 [10] 0 10 rfl)
    simp [ch] at h
    simpa using h

/-- A byte list dropped to a cons determines the element there. -/
theorem get?_of_drop_cons (l : List Nat) (n x : Nat) (t : List Nat)
    (h : l.drop n = x :: t) : l.get? n = some x := by
  have h0 : (l.drop n).get? 0 = l.get? (n + 0) := List.get?_drop l n 0
  rw [h] at h0
  simpa using h0.symm

/-- The class-scan loop collects exactly the raw bytes before the closing
bracket, stopping on it, whenever the fuel exceeds their number. -/
theorem classCharsF_spec :
    ∀ (cs : List Nat) (fuel : Nat) (p : Ast.Parser) (acc rest : List Nat),
      p.pattern.drop p.pos = cs ++ ch ']' :: rest →
      (ch ']') ∉ cs → cs.length < fuel →
      Ast.classCharsF fuel p acc = (acc ++ cs, { p with pos := p.pos + cs.length }) := by
  intro cs
  induction cs with
  | nil =>
    intro fuel p acc rest h hnb hf
    cases fuel with
    | zero => omega
    | succ f =>
      have hget : p.pattern.get? p.pos = some (ch ']') := get?_of_drop_cons _ _ _ _ h
      conv_lhs => rw [Ast.classCharsF]
      rw [hget]
      show (acc, p) = (acc ++ [], { p with pos := p.pos + List.length [] })
      simp
  | cons c cs ih =>
    intro fuel p acc rest h hnb hf
    cases fuel with
    | zero => omega
    | succ f =>
      have hget : p.pattern.get? p.pos = some c := get?_of_drop_cons _ _ _ _ h
      have hc : c ≠ ch ']' := by
        intro hc
        exact hnb (hc ▸ List.mem_cons_self c cs)
      have hdrop : p.pattern.drop (p.pos + 1) = cs ++ ch ']' :: rest := by
        have ht : (p.pattern.drop p.pos).tail = p.pattern.drop (p.pos + 1) :=
          List.tail_drop p.pattern p.pos
        rw [h] at ht
        simpa using ht.symm
      have hnb2 : (ch ']') ∉ cs := fun hm => hnb (List.mem_cons_of_mem c hm)
      have hrec := ih f { p with pos := p.pos + 1 } (acc ++ [c]) rest hdrop hnb2
        (by simpa using hf)
      have hstep : Ast.classCharsF (f + 1) p acc =
          Ast.classCharsF f { p with pos := p.pos + 1 } (acc ++ [c]) := by
        conv_lhs => rw [Ast.classCharsF]
        rw [hget]
        show (if c = ch ']' then (acc, p)
          else Ast.classCharsF f { p with pos := p.pos + 1 } (acc ++ [c])) =
          Ast.classCharsF f { p with pos := p.pos + 1 } (acc ++ [c])
        exact if_neg hc
      rw [hstep, hrec]
      have harith : p.pos + 1 + cs.length = p.pos + (c :: cs).length := by
        simp only [List.length_cons]
        omega
      rw [harith]
      simp


/-- A byte list dropped to a cons determines the element there, getElem form. -/
theorem drop_cons_getElem (l : List Nat) (n x : Nat) (t : List Nat)
    (h : l.drop n = x :: t) : l[n]? = some x := by
  have hg : l.get? n = some x := get?_of_drop_cons l n x t h
  simpa [List.get?_eq_getElem?] using hg

/-- Parser.parseCharClass on an unnegated class body: the membership set is
exactly the raw bytes between the brackets, unexpanded. -/
theorem parseCharClass_raw (cs rest : List Nat) (p : Ast.Parser)
    (h : p.pattern.drop p.pos = cs ++ ch ']' :: rest)
    (hnb : (ch ']') ∉ cs) (hhd : cs.head? ≠ some (ch '^')) :
    Ast.Parser.parseCharClass p =
      .ok (.charClass cs false, ⟨p.pattern, p.pos + cs.length + 1, p.nextGroupId⟩) := by
  have hlen : p.pattern.length - p.pos = cs.length + (rest.length + 1) := by
    have h2 := congrArg List.length h
    simpa using h2
  have hpk : p.peek ≠ ch '^' := by
    cases cs with
    | nil =>
      have hget : p.pattern[p.pos]? = some (ch ']') := drop_cons_getElem _ _ _ _ (by simpa using h)
      simp [Ast.Parser.peek, hget, ch]
    | cons c t =>
      have hget : p.pattern[p.pos]? = some c := drop_cons_getElem _ _ _ _ (by simpa using h)
      have hne : c ≠ ch '^' := by
        intro hc
        exact hhd (by simp [hc])
      simp [Ast.Parser.peek, hget, hne]
  have hloop : Ast.classChars p [] = (cs, { p with pos := p.pos + cs.length }) := by
    rw [Ast.classChars]
    exact classCharsF_spec cs (p.pattern.length - p.pos + 1) p [] rest h hnb (by omega)
  have hdropend : p.pattern.drop (p.pos + cs.length) = ch ']' :: rest := by
    have h1 : p.pattern.drop (p.pos + cs.length) = (p.pattern.drop p.pos).drop cs.length := by
      rw [List.drop_drop]
    rw [h1, h]
    exact List.drop_left cs (ch ']' :: rest)
  have hgetend : p.pattern[p.pos + cs.length]? = some (ch ']') :=
    drop_cons_getElem _ _ _ _ hdropend
  have heof : ({ p with pos := p.pos + cs.length } : Ast.Parser).isEOF = false := by
    simp [Ast.Parser.isEOF]
    omega
  simp only [Ast.Parser.parseCharClass]
  rw [if_neg hpk]
  rw [hloop]
  simp only [heof, Bool.false_eq_true, if_false]
  simp [Ast.Parser.advance, hgetend, List.get?_eq_getElem?, Nat.add_assoc]

/-- Parser.parseCharClass with a leading caret: negated, raw bytes. -/
theorem parseCharClass_raw_neg (cs rest : List Nat) (p : Ast.Parser)
    (h : p.pattern.drop p.pos = ch '^' :: (cs ++ ch ']' :: rest))
    (hnb : (ch ']') ∉ cs) :
    Ast.Parser.parseCharClass p =
      .ok (.charClass cs true, ⟨p.pattern, p.pos + cs.length + 2, p.nextGroupId⟩) := by
  have hget : p.pattern[p.pos]? = some (ch '^') := drop_cons_getElem _ _ _ _ h
  have hpk : p.peek = ch '^' := by
    simp [Ast.Parser.peek, hget]
  have hadv : (p.advance).2 = { p with pos := p.pos + 1 } := by
    simp [Ast.Parser.advance, List.get?_eq_getElem?, hget]
  have hdrop1 : p.pattern.drop (p.pos + 1) = cs ++ ch ']' :: rest := by
    have ht : (p.pattern.drop p.pos).tail = p.pattern.drop (p.pos + 1) :=
      List.tail_drop p.pattern p.pos
    rw [h] at ht
    simpa using ht.symm
  have hlen : p.pattern.length - (p.pos + 1) = cs.length + (rest.length + 1) := by
    have h2 := congrArg List.length hdrop1
    simpa using h2
  have hloop : Ast.classChars { p with pos := p.pos + 1 } [] =
      (cs, { p with pos := p.pos + 1 + cs.length }) := by
    rw [Ast.classChars]
    exact classCharsF_spec cs _ { p with pos := p.pos + 1 } [] rest hdrop1 hnb (by simp; omega)
  have hdropend : p.pattern.drop (p.pos + 1 + cs.length) = ch ']' :: rest := by
    have h1 : p.pattern.drop (p.pos + 1 + cs.length) = (p.pattern.drop (p.pos + 1)).drop cs.length := by
      rw [List.drop_drop]
    rw [h1, hdrop1]
    exact List.drop_left cs (ch ']' :: rest)
  have hgetend : p.pattern[p.pos + 1 + cs.length]? = some (ch ']') :=
    drop_cons_getElem _ _ _ _ hdropend
  have heof : ({ p with pos := p.pos + 1 + cs.length } : Ast.Parser).isEOF = false := by
    simp [Ast.Parser.isEOF]
    omega
  simp only [Ast.Parser.parseCharClass]
  rw [if_pos hpk, hadv, hloop]
  simp only [heof, Bool.false_eq_true, if_false]
  simp [Ast.Parser.advance, hgetend, List.get?_eq_getElem?]
  omega

/-- C7 (confirmed): a character class consists of exactly the raw bytes
between the brackets (after an optional leading caret which negates); ranges
are not expanded, so [0-9] has membership set 0, -, 9; and a class matches
one in-range input byte iff membership XOR negated, failing out of range. -/
theorem c7_char_class_raw_bytes :
    (∀ cs rest (p : Ast.Parser), p.pattern.drop p.pos = cs ++ ch ']' :: rest →
       (ch ']') ∉ cs → cs.head? ≠ some (ch '^') →
       Ast.Parser.parseCharClass p =
         .ok (.charClass cs false, ⟨p.pattern, p.pos + cs.length + 1, p.nextGroupId⟩))
    ∧ (∀ cs rest (p : Ast.Parser), p.pattern.drop p.pos = ch '^' :: (cs ++ ch ']' :: rest) →
       (ch ']') ∉ cs →
       Ast.Parser.parseCharClass p =
         .ok (.charClass cs true, ⟨p.pattern, p.pos + cs.length + 2, p.nextGroupId⟩))
    ∧ (∀ nm cs neg (input : List Nat) pos b, input.get? pos = some b →
       (Nfa.matcherMatch (.charClass nm cs neg) input pos = true ↔ cs.contains b ≠ neg))
    ∧ (∀ nm cs neg (input : List Nat) pos, input.length ≤ pos →
       Nfa.matcherMatch (.charClass nm cs neg) input pos = false)
    ∧ (∀ fuel cs neg (input : List Nat) pos caps b, input.get? pos = some b →
       Ast.matchAllF (fuel + 1) (.charClass cs neg) input pos caps =
         some (if cs.contains b ≠ neg then [⟨pos + 1, caps⟩] else []))
    ∧ Ast.parse (bytes "[0-9]") = .ok (.charClass [ch '0', ch '-', ch '9'] false, 1)
    ∧ Nfa.ParseNFA ⟨bytes "[0-9]", 0, 1, 0, []⟩ =
        .ok (⟨0, 1⟩, ⟨bytes "[0-9]", 5, 1, 2,
          [(0, ⟨false, [⟨1, .charClass (bytes "[0-9]") [ch '0', ch '-', ch '9'] false⟩]⟩),
           (1, ⟨true, []⟩)]⟩) := by
  refine ⟨parseCharClass_raw, parseCharClass_raw_neg, ?_, ?_, ?_, rfl, rfl⟩
  · intro nm cs neg input pos b hb
    have hb2 : input[pos]? = some b := by simpa [List.get?_eq_getElem?] using hb
    simp [Nfa.matcherMatch, hb2]
  · intro nm cs neg input pos hl
    have hb2 : input[pos]? = none := by simp [List.getElem?_eq_none_iff]; omega
    simp [Nfa.matcherMatch, List.get?_eq_getElem?, hb2]
  · intro fuel cs neg input pos caps b hb
    have hb2 : input[pos]? = some b := by simpa [List.get?_eq_getElem?] using hb
    simp only [Ast.matchAllF, List.get?_eq_getElem?, hb2]

/-- C7 witness at the class [0-9] and the byte 7. -/
theorem c7_char_class_raw_bytes_witness :
    Ast.Parser.parseCharClass ⟨bytes "[0-9]", 1, 1⟩ =
      .ok (.charClass [ch '0', ch '-', ch '9'] false, ⟨bytes "[0-9]", 5, 1⟩)
    ∧ (Nfa.matcherMatch (.charClass [] [ch '0', ch '-', ch '9'] false) (bytes "7") 0 = true ↔
        ([ch '0', ch '-', ch '9'].contains (ch '7') ≠ false)) := by
  constructor
  · exact c7_char_class_raw_bytes.1 [ch '0', ch '-', ch '9'] [] ⟨bytes "[0-9]", 1, 1⟩
      (by decide) (by decide) (by decide)
  · exact c7_char_class_raw_bytes.2.2.1 [] [ch '0', ch '-', ch '9'] false (bytes "7") 0 (ch '7') (by decide)

/-- The visit trace of the closure DFS is accumulator-compositional. -/
theorem closureTraceAuxF_append (store : Nfa.Store) (input : List Nat) :
    ∀ fuel visited stack tacc,
      Nfa.closureTraceAuxF store input fuel visited stack tacc =
        tacc ++ Nfa.closureTraceAuxF store input fuel visited stack [] := by
  intro fuel
  induction fuel with
  | zero => intro v s t; simp [Nfa.closureTraceAuxF]
  | succ f ih =>
    intro v s t
    cases s with
    | nil => simp [Nfa.closureTraceAuxF]
    | cons c rest =>
      by_cases hv : v.contains c.state = true
      · simp only [Nfa.closureTraceAuxF, hv, if_true]
        rw [ih v rest (t ++ [c]), ih v rest ([] ++ [c])]
        simp
      · simp only [Nfa.closureTraceAuxF, hv, Bool.false_eq_true, if_false]
        rw [ih _ _ (t ++ [c]), ih _ _ ([] ++ [c])]
        simp

/-- The closure DFS computes exactly the first-occurrence-per-state
filtering of its own visit trace. -/
theorem closureAux_keepFirst (store : Nfa.Store) (input : List Nat) :
    ∀ fuel visited stack acc,
      Nfa.closureAuxF store input fuel visited stack acc =
        acc ++ Nfa.keepFirstByState visited
          (Nfa.closureTraceAuxF store input fuel visited stack []) := by
  intro fuel
  induction fuel with
  | zero => intro v s a; simp [Nfa.closureAuxF, Nfa.closureTraceAuxF, Nfa.keepFirstByState]
  | succ f ih =>
    intro v s a
    cases s with
    | nil => simp [Nfa.closureAuxF, Nfa.closureTraceAuxF, Nfa.keepFirstByState]
    | cons c rest =>
      by_cases hv : v.contains c.state = true
      · have hv2 : c.state ∈ v := by simpa using hv
        simp only [Nfa.closureAuxF, Nfa.closureTraceAuxF, hv, if_true]
        rw [closureTraceAuxF_append store input f v rest ([] ++ [c])]
        rw [ih v rest a]
        simp [Nfa.keepFirstByState, hv2]
      · have hv2 : c.state ∉ v := by simpa using hv
        simp only [Nfa.closureAuxF, Nfa.closureTraceAuxF, hv, Bool.false_eq_true, if_false]
        rw [closureTraceAuxF_append store input f _ _ ([] ++ [c])]
        rw [ih _ _ (a ++ [c])]
        simp [Nfa.keepFirstByState, hv2]

/-- First-occurrence filtering yields pairwise distinct state ids, none of
them already seen. -/
theorem keepFirst_nodup :
    ∀ (l : List Nfa.ExecutionContext) (seen : List Nat),
      ((Nfa.keepFirstByState seen l).map (fun c => c.state)).Nodup
      ∧ ∀ x ∈ (Nfa.keepFirstByState seen l).map (fun c => c.state), x ∉ seen := by
  intro l
  induction l with
  | nil => intro seen; simp [Nfa.keepFirstByState]
  | cons c cs ih =>
    intro seen
    by_cases hv : c.state ∈ seen
    · rw [show Nfa.keepFirstByState seen (c :: cs) = Nfa.keepFirstByState seen cs from by
        simp [Nfa.keepFirstByState, hv]]
      exact ih seen
    · rw [show Nfa.keepFirstByState seen (c :: cs) =
          c :: Nfa.keepFirstByState (c.state :: seen) cs from by
        simp [Nfa.keepFirstByState, hv]]
      have h2 := ih (c.state :: seen)
      constructor
      · simp only [List.map_cons, List.nodup_cons]
        refine ⟨fun hmem => ?_, h2.1⟩
        have hfalse := h2.2 c.state hmem
        simp at hfalse
      · intro x hx
        simp only [List.map_cons, List.mem_cons] at hx
        rcases hx with hx | hx
        · subst hx; exact hv
        · have hni := h2.2 x hx
          simp at hni
          exact hni.2

/-- C9 (confirmed): the epsilon closure yields at most one context per NFA
state (the mapped state ids are without duplicates), and it equals the
first-occurrence-per-state filtering of the DFS visit trace: the context
kept for each state is the first context that reaches that state during the
closure computation. -/
theorem c9_closure_dedup_keeps_first :
    ∀ (store : Nfa.Store) (contexts : List Nfa.ExecutionContext) (input : List Nat),
      ((Nfa.epsilonClosure store contexts input).map (fun c => c.state)).Nodup
      ∧ Nfa.epsilonClosure store contexts input =
          Nfa.keepFirstByState [] (Nfa.closureTrace store contexts input) := by
  intro store ctxs input
  have hmain := closureAux_keepFirst store input (Nfa.closureFuel store ctxs) [] ctxs.reverse []
  constructor
  · rw [Nfa.epsilonClosure, hmain]
    simpa using (keepFirst_nodup _ []).1
  · rw [Nfa.epsilonClosure, Nfa.closureTrace, hmain]
    simp

/-- A position reported by the hybrid scan loop lies in its candidate list. -/
theorem hybridScan_pos_mem :
    ∀ (ps : List Nat) fuel (ast : Ast.Node) (input : List Nat) caps0 p caps,
      Ast.hybridScanF fuel ast input caps0 ps = .ok (some (p, caps)) → p ∈ ps := by
  intro ps
  induction ps with
  | nil => intro fuel ast input caps0 p caps h; simp [Ast.hybridScanF] at h
  | cons q qs ih =>
    intro fuel ast input caps0 p caps h
    simp only [Ast.hybridScanF] at h
    cases hm : Ast.matchAllF fuel ast input q caps0 with
    | none => rw [hm] at h; exact absurd h (by simp)
    | some rs =>
      rw [hm] at h
      cases rs with
      | nil => exact List.mem_cons_of_mem q (ih fuel ast input caps0 p caps h)
      | cons r rs2 =>
        simp at h
        exact h.1 ▸ List.mem_cons_self q qs

/-- An unanchored hybrid scan reports only start positions below the input
length, since its candidate list is range(len(input)). -/
theorem c1_aux_scan_lt :
    ∀ fuel (input pattern : List Nat) p caps, Ast.startsWithCaret pattern = false →
      Ast.MatchASTHybridScan fuel input pattern = .ok (some (p, caps)) → p < input.length := by
  intro fuel input pattern p caps hanch h
  simp only [Ast.MatchASTHybridScan] at h
  cases hp : Ast.parse pattern with
  | ok v =>
    obtain ⟨ast, n⟩ := v
    rw [hp] at h
    rw [hanch] at h
    simp only [Bool.false_eq_true, if_false] at h
    have := hybridScan_pos_mem (List.range input.length) fuel ast input
      (List.replicate n []) p caps h
    simpa using this
  | err m => rw [hp] at h; exact absurd h (by simp)
  | panicked m => rw [hp] at h; exact absurd h (by simp)
  | timeout => rw [hp] at h; exact absurd h (by simp)

/-- A scan position reported by the backtracking scan loop of MatchAST lies
in its candidate list. -/
theorem matchASTScan_pos_mem :
    ∀ (ps : List Nat) fuel (ast : Ast.Node) (input : List Nat) p caps,
      Ast.matchASTScanF fuel ast input ps = .ok (some (p, caps)) → p ∈ ps := by
  intro ps
  induction ps with
  | nil => intro fuel ast input p caps h; simp [Ast.matchASTScanF] at h
  | cons q qs ih =>
    intro fuel ast input p caps h
    simp only [Ast.matchASTScanF] at h
    cases hm : Ast.matchF fuel ast input q with
    | err m => rw [hm] at h; exact absurd h (by simp)
    | panicked m => rw [hm] at h; exact absurd h (by simp)
    | timeout => rw [hm] at h; exact absurd h (by simp)
    | ok mr =>
      rw [hm] at h
      have h2 : (if mr.success then
            GoResult.ok (some (q, Ast.buildCaptures input q mr.endPos mr.captures))
          else Ast.matchASTScanF fuel ast input qs) = GoResult.ok (some (p, caps)) := h
      by_cases hs : mr.success = true
      · rw [if_pos hs] at h2
        simp only [GoResult.ok.injEq, Option.some.injEq, Prod.mk.injEq] at h2
        exact h2.1 ▸ List.mem_cons_self q qs
      · rw [if_neg hs] at h2
        exact List.mem_cons_of_mem q (ih fuel ast input p caps h2)

/-- An unanchored MatchAST scan reports only start positions below the input
length, since its candidate list is range(len(input)). -/
theorem c1_aux_astscan_lt :
    ∀ fuel (input pattern : List Nat) p caps, Ast.startsWithCaret pattern = false →
      Ast.MatchASTScan fuel input pattern = .ok (some (p, caps)) → p < input.length := by
  intro fuel input pattern p caps hanch h
  simp only [Ast.MatchASTScan] at h
  cases hp : Ast.parse pattern with
  | ok v =>
    obtain ⟨ast, n⟩ := v
    rw [hp] at h
    rw [hanch] at h
    simp only [Bool.false_eq_true, if_false] at h
    have := matchASTScan_pos_mem (List.range input.length) fuel ast input p caps h
    simpa using this
  | err m => rw [hp] at h; exact absurd h (by simp)
  | panicked m => rw [hp] at h; exact absurd h (by simp)
  | timeout => rw [hp] at h; exact absurd h (by simp)

/-- C1 (amended): all three scanning drivers are exclusive of the
end-of-input position. Any match the hybrid scan or the backtracking
MatchAST scan reports for an unanchored pattern starts at p strictly below
len(input); a reported scan position always lies in the candidate list; and
on empty input an unanchored scan reports no match (the hybrid scan and the
MatchAST scan yield none, MatchNFA yields false), whatever the pattern. -/
theorem c1_scan_positions_exclusive :
    (∀ (ps : List Nat) fuel (ast : Ast.Node) (input : List Nat) caps0 p caps,
       Ast.hybridScanF fuel ast input caps0 ps = .ok (some (p, caps)) → p ∈ ps)
    ∧ (∀ fuel (input pattern : List Nat) p caps, Ast.startsWithCaret pattern = false →
       Ast.MatchASTHybridScan fuel input pattern = .ok (some (p, caps)) → p < input.length)
    ∧ (∀ fuel (pattern : List Nat) x, Ast.startsWithCaret pattern = false →
       Ast.MatchASTHybridScan fuel [] pattern ≠ .ok (some x))
    ∧ (∀ sc (pattern : List Nat), pattern.head? ≠ some (ch '^') →
       Nfa.MatchNFA sc [] pattern ≠ .ok true)
    ∧ (∀ (ps : List Nat) fuel (ast : Ast.Node) (input : List Nat) p caps,
       Ast.matchASTScanF fuel ast input ps = .ok (some (p, caps)) → p ∈ ps)
    ∧ (∀ fuel (input pattern : List Nat) p caps, Ast.startsWithCaret pattern = false →
       Ast.MatchASTScan fuel input pattern = .ok (some (p, caps)) → p < input.length)
    ∧ (∀ fuel (pattern : List Nat) x, Ast.startsWithCaret pattern = false →
       Ast.MatchASTScan fuel [] pattern ≠ .ok (some x)) := by
  refine ⟨hybridScan_pos_mem, c1_aux_scan_lt, ?_, ?_, matchASTScan_pos_mem,
    c1_aux_astscan_lt, ?_⟩
  · intro fuel pattern x hanch h
    obtain ⟨p, caps⟩ := x
    have := c1_aux_scan_lt fuel [] pattern p caps hanch h
    simp at this
  · intro sc pattern hhd h
    cases pattern with
    | nil => simp [Nfa.MatchNFA] at h
    | cons c rest =>
      have hc : ¬ (c = ch '^') := by
        intro hc
        exact hhd (by simp [hc])
      simp only [Nfa.MatchNFA] at h
      simp only [if_neg hc] at h
      cases hp : Nfa.ParseNFA ⟨(if (c :: rest).getLast? = some (ch '$') then
          (c :: rest).dropLast else c :: rest), 0, 1, sc, []⟩ with
      | ok v =>
        obtain ⟨nfa, np⟩ := v
        rw [hp] at h
        simp [Nfa.matchNFAScanF] at h
      | err m => rw [hp] at h; simp at h
      | panicked m => rw [hp] at h; simp at h
      | timeout => rw [hp] at h; simp at h
  · intro fuel pattern x hanch h
    obtain ⟨p, caps⟩ := x
    have := c1_aux_astscan_lt fuel [] pattern p caps hanch h
    simp at this

/-- C1 amended witness: the concrete unanchored scans of the pattern ab over
the input xaby, through the hybrid driver and through the backtracking
MatchAST driver, both report position 1, which lies below the input
length. -/
theorem c1_scan_positions_exclusive_witness :
    (Ast.startsWithCaret (bytes "ab") = false ∧ (1 : Nat) < (bytes "xaby").length)
    ∧ (Ast.startsWithCaret (bytes "ab") = false ∧ (1 : Nat) < (bytes "xaby").length ∧
       Ast.MatchASTScan 20 (bytes "xaby") (bytes "ab") = .ok (some (1, [bytes "ab"]))) :=
  ⟨⟨rfl, c1_scan_positions_exclusive.2.1 20 (bytes "xaby") (bytes "ab") 1 [bytes "ab"]
      rfl rfl⟩,
   ⟨rfl, c1_scan_positions_exclusive.2.2.2.2.2.1 20 (bytes "xaby") (bytes "ab") 1
      [bytes "ab"] rfl (by decide), by decide⟩⟩

theorem sliceB_length (input : List Nat) (a b : Nat) (hab : a ≤ b) (hb : b ≤ input.length) :
    (sliceB input a b).length = b - a := by
  simp [sliceB]
  omega

theorem matchAll_bounds : ∀ fuel : Nat,
    (∀ node input pos caps results, Ast.matchAllF fuel node input pos caps = some results →
       pos ≤ input.length → ∀ r ∈ results, pos ≤ r.endPos ∧ r.endPos ≤ input.length)
    ∧ (∀ children input pos caps results,
        Ast.matchAllChildrenF fuel children input pos caps = some results →
       pos ≤ input.length → ∀ r ∈ results, pos ≤ r.endPos ∧ r.endPos ≤ input.length)
    ∧ (∀ rest input ms results lb, Ast.seqRestF fuel rest input ms = some results →
       (∀ m ∈ ms, lb ≤ m.endPos ∧ m.endPos ≤ input.length) →
       ∀ r ∈ results, lb ≤ r.endPos ∧ r.endPos ≤ input.length)
    ∧ (∀ cs input pos caps results, Ast.matchAllAltF fuel cs input pos caps = some results →
       pos ≤ input.length → ∀ r ∈ results, pos ≤ r.endPos ∧ r.endPos ≤ input.length)
    ∧ (∀ child input pos caps count mx results,
        Ast.quantLoopF fuel child input pos caps count mx = some results →
       pos ≤ input.length → ∀ r ∈ results, pos ≤ r.endPos ∧ r.endPos ≤ input.length)
    ∧ (∀ child input pos caps count results,
        Ast.matchExactlyF fuel child input pos caps count = some results →
       pos ≤ input.length → ∀ r ∈ results, pos ≤ r.endPos ∧ r.endPos ≤ input.length)
    ∧ (∀ child input current k results lb, Ast.iterExactF fuel child input current k = some results →
       (∀ m ∈ current, lb ≤ m.endPos ∧ m.endPos ≤ input.length) →
       ∀ r ∈ results, lb ≤ r.endPos ∧ r.endPos ≤ input.length)
    ∧ (∀ child input ms results lb, Ast.stepExactF fuel child input ms = some results →
       (∀ m ∈ ms, lb ≤ m.endPos ∧ m.endPos ≤ input.length) →
       ∀ r ∈ results, lb ≤ r.endPos ∧ r.endPos ≤ input.length) := by
  intro fuel
  induction fuel with
  | zero =>
    refine ⟨?_, ?_, ?_, ?_, ?_, ?_, ?_, ?_⟩
    · intro node input pos caps results h
      simp [Ast.matchAllF] at h
    · intro children input pos caps results h
      simp [Ast.matchAllChildrenF] at h
    · intro rest input ms results lb h
      simp [Ast.seqRestF] at h
    · intro cs input pos caps results h
      simp [Ast.matchAllAltF] at h
    · intro child input pos caps count mx results h
      simp [Ast.quantLoopF] at h
    · intro child input pos caps count results h
      simp [Ast.matchExactlyF] at h
    · intro child input current k results lb h
      simp [Ast.iterExactF] at h
    · intro child input ms results lb h
      simp [Ast.stepExactF] at h
  | succ fuel ih =>
    obtain ⟨ihAll, ihChildren, ihSeqRest, ihAlt, ihQuant, ihExact, ihIter, ihStep⟩ := ih
    refine ⟨?_, ?_, ?_, ?_, ?_, ?_, ?_, ?_⟩
    · -- matchAllF
      intro node input pos caps results h hpos r hr
      cases node with
      | seq children => exact ihChildren children input pos caps results h hpos r hr
      | lit v =>
        simp only [Ast.matchAllF] at h
        cases hq : input.get? pos with
        | some b =>
          rw [hq] at h
          have hres := Option.some.inj h
          subst hres
          have hr2 : r ∈ (if v = b then [(⟨pos + 1, caps⟩ : Ast.MatchResult)] else []) := hr
          by_cases hvb : v = b
          · rw [if_pos hvb, List.mem_singleton] at hr2
            subst hr2
            obtain ⟨hlt, -⟩ := List.get?_eq_some.mp hq
            simp
            omega
          · rw [if_neg hvb] at hr2
            simp at hr2
        | none =>
          rw [hq] at h
          have hres := Option.some.inj h
          subst hres
          have hr2 : r ∈ ([] : List Ast.MatchResult) := hr
          simp at hr2
      | charClass cs neg =>
        simp only [Ast.matchAllF] at h
        cases hq : input.get? pos with
        | some b =>
          rw [hq] at h
          have hres := Option.some.inj h
          subst hres
          have hr2 : r ∈ (if cs.contains b ≠ neg
              then [(⟨pos + 1, caps⟩ : Ast.MatchResult)] else []) := hr
          by_cases hc : (cs.contains b ≠ neg)
          · rw [if_pos hc, List.mem_singleton] at hr2
            subst hr2
            obtain ⟨hlt, -⟩ := List.get?_eq_some.mp hq
            simp
            omega
          · rw [if_neg hc] at hr2
            simp at hr2
        | none =>
          rw [hq] at h
          have hres := Option.some.inj h
          subst hres
          have hr2 : r ∈ ([] : List Ast.MatchResult) := hr
          simp at hr2
      | startAnchor =>
        simp only [Ast.matchAllF] at h
        have hres := Option.some.inj h
        subst hres
        have hr2 : r ∈ (if pos = 0 then [(⟨pos, caps⟩ : Ast.MatchResult)] else []) := hr
        by_cases hp : pos = 0
        · rw [if_pos hp, List.mem_singleton] at hr2
          subst hr2
          simp
          omega
        · rw [if_neg hp] at hr2
          simp at hr2
      | endAnchor =>
        simp only [Ast.matchAllF] at h
        have hres := Option.some.inj h
        subst hres
        have hr2 : r ∈ (if pos = input.length then [(⟨pos, caps⟩ : Ast.MatchResult)] else []) := hr
        by_cases hp : pos = input.length
        · rw [if_pos hp, List.mem_singleton] at hr2
          subst hr2
          simp
          omega
        · rw [if_neg hp] at hr2
          simp at hr2
      | dot =>
        simp only [Ast.matchAllF] at h
        cases hq : input.get? pos with
        | some b =>
          rw [hq] at h
          have hres := Option.some.inj h
          subst hres
          have hr2 : r ∈ [(⟨pos + 1, caps⟩ : Ast.MatchResult)] := hr
          rw [List.mem_singleton] at hr2
          subst hr2
          obtain ⟨hlt, -⟩ := List.get?_eq_some.mp hq
          simp
          omega
        | none =>
          rw [hq] at h
          have hres := Option.some.inj h
          subst hres
          have hr2 : r ∈ ([] : List Ast.MatchResult) := hr
          simp at hr2
      | capture child gidx =>
        simp only [Ast.matchAllF] at h
        cases hm : Ast.matchAllF fuel child input pos caps with
        | none => rw [hm] at h; simp at h
        | some ms =>
          rw [hm] at h
          have hres := Option.some.inj h
          subst hres
          simp only [List.mem_map] at hr
          obtain ⟨m, hmmem, hme⟩ := hr
          have hb := ihAll child input pos caps ms hm hpos m hmmem
          rw [← hme]
          simpa using hb
      | alternation cs => exact ihAlt cs input pos caps results h hpos r hr
      | quant child mn mx greedy =>
        simp only [Ast.matchAllF] at h
        cases hm : Ast.quantLoopF fuel child input pos caps mn mx with
        | none => rw [hm] at h; simp at h
        | some all =>
          rw [hm] at h
          have hres := Option.some.inj h
          subst hres
          have hall := ihQuant child input pos caps mn mx all hm hpos
          by_cases hemp : all = []
          · rw [if_pos hemp] at hr
            simp at hr
          · rw [if_neg hemp] at hr
            by_cases hg : greedy
            · rw [if_pos hg] at hr
              exact hall r (List.mem_reverse.mp hr)
            · rw [if_neg hg] at hr
              exact hall r hr
    · -- matchAllChildrenF
      intro children input pos caps results h hpos r hr
      cases children with
      | nil =>
        simp [Ast.matchAllChildrenF] at h
        subst h
        simp at hr
        subst hr
        simp
        omega
      | cons child rest =>
        simp only [Ast.matchAllChildrenF] at h
        cases hm : Ast.matchAllF fuel child input pos caps with
        | none => rw [hm] at h; simp at h
        | some ms =>
          rw [hm] at h
          have hbase := ihAll child input pos caps ms hm hpos
          exact ihSeqRest rest input ms results pos h hbase r hr
    · -- seqRestF
      intro rest input ms results lb h hms r hr
      cases ms with
      | nil =>
        simp [Ast.seqRestF] at h
        subst h
        simp at hr
      | cons m ms2 =>
        simp only [Ast.seqRestF] at h
        cases hm : Ast.matchAllChildrenF fuel rest input m.endPos m.captures with
        | none => rw [hm] at h; simp at h
        | some rs =>
          rw [hm] at h
          cases hm2 : Ast.seqRestF fuel rest input ms2 with
          | none => rw [hm2] at h; simp at h
          | some rss =>
            rw [hm2] at h
            simp at h
            subst h
            have hmb := hms m (List.mem_cons_self m ms2)
            have h1 := ihChildren rest input m.endPos m.captures rs hm hmb.2
            have h2 := ihSeqRest rest input ms2 rss lb hm2
              (fun x hx => hms x (List.mem_cons_of_mem m hx))
            rcases List.mem_append.mp hr with hra | hrb
            · have := h1 r hra
              omega
            · exact h2 r hrb
    · -- matchAllAltF
      intro cs input pos caps results h hpos r hr
      cases cs with
      | nil =>
        simp [Ast.matchAllAltF] at h
        subst h
        simp at hr
      | cons c rest =>
        simp only [Ast.matchAllAltF] at h
        cases hm : Ast.matchAllF fuel c input pos caps with
        | none => rw [hm] at h; simp at h
        | some rs =>
          rw [hm] at h
          cases hm2 : Ast.matchAllAltF fuel rest input pos caps with
          | none => rw [hm2] at h; simp at h
          | some rss =>
            rw [hm2] at h
            simp at h
            subst h
            rcases List.mem_append.mp hr with hra | hrb
            · exact ihAll c input pos caps rs hm hpos r hra
            · exact ihAlt rest input pos caps rss hm2 hpos r hrb
    · -- quantLoopF
      intro child input pos caps count mx results h hpos r hr
      simp only [Ast.quantLoopF] at h
      by_cases hstop : mx ≠ -1 ∧ mx < (count : Int)
      · simp [hstop] at h
        subst h
        simp at hr
      · simp [hstop] at h
        cases hm : Ast.matchExactlyF fuel child input pos caps count with
        | none => rw [hm] at h; simp at h
        | some exact0 =>
          rw [hm] at h
          cases exact0 with
          | nil =>
            simp at h
            subst h
            simp at hr
          | cons e es =>
            cases hm2 : Ast.quantLoopF fuel child input pos caps (count + 1) mx with
            | none => rw [hm2] at h; simp at h
            | some rest =>
              rw [hm2] at h
              simp at h
              subst h
              rcases List.mem_cons.mp hr with hre | hr3
              · exact ihExact child input pos caps count (e :: es) hm hpos r
                  (hre ▸ List.mem_cons_self e es)
              · rcases List.mem_append.mp hr3 with hra | hrb
                · exact ihExact child input pos caps count (e :: es) hm hpos r
                    (List.mem_cons_of_mem e hra)
                · exact ihQuant child input pos caps (count + 1) mx rest hm2 hpos r hrb
    · -- matchExactlyF
      intro child input pos caps count results h hpos r hr
      cases count with
      | zero =>
        simp only [Ast.matchExactlyF] at h
        cases child <;> simp at h <;> subst h <;> simp at hr <;> subst hr <;> simp <;> omega
      | succ k =>
        simp only [Ast.matchExactlyF] at h
        exact ihIter child input [⟨pos, caps⟩] (k + 1) results pos h
          (by intro m hm; simp at hm; subst hm; simp; omega) r hr
    · -- iterExactF
      intro child input current k results lb h hcur r hr
      cases k with
      | zero =>
        simp [Ast.iterExactF] at h
        subst h
        exact hcur r hr
      | succ k2 =>
        simp only [Ast.iterExactF] at h
        cases hm : Ast.stepExactF fuel child input current with
        | none => rw [hm] at h; simp at h
        | some next =>
          rw [hm] at h
          cases next with
          | nil =>
            simp at h
            subst h
            simp at hr
          | cons n ns =>
            have hnext := ihStep child input current (n :: ns) lb hm hcur
            exact ihIter child input (n :: ns) k2 results lb h hnext r hr
    · -- stepExactF
      intro child input ms results lb h hms r hr
      cases ms with
      | nil =>
        simp [Ast.stepExactF] at h
        subst h
        simp at hr
      | cons m ms2 =>
        simp only [Ast.stepExactF] at h
        cases hm : Ast.matchAllF fuel child input m.endPos m.captures with
        | none => rw [hm] at h; simp at h
        | some rs =>
          rw [hm] at h
          cases hm2 : Ast.stepExactF fuel child input ms2 with
          | none => rw [hm2] at h; simp at h
          | some rss =>
            rw [hm2] at h
            simp at h
            subst h
            have hmb := hms m (List.mem_cons_self m ms2)
            rcases List.mem_append.mp hr with hra | hrb
            · have := ihAll child input m.endPos m.captures rs hm hmb.2 r hra
              omega
            · exact ihStep child input ms2 rss lb hm2
                (fun x hx => hms x (List.mem_cons_of_mem m hx)) r hrb

theorem matchAll_preserves_caps : ∀ fuel : Nat,
    (∀ node input pos caps results, Ast.noCapture node = true →
       Ast.matchAllF fuel node input pos caps = some results →
       ∀ r ∈ results, r.captures = caps)
    ∧ (∀ children input pos caps results, Ast.noCaptureList children = true →
       Ast.matchAllChildrenF fuel children input pos caps = some results →
       ∀ r ∈ results, r.captures = caps)
    ∧ (∀ rest input ms results caps, Ast.noCaptureList rest = true →
       Ast.seqRestF fuel rest input ms = some results →
       (∀ m ∈ ms, m.captures = caps) → ∀ r ∈ results, r.captures = caps)
    ∧ (∀ cs input pos caps results, Ast.noCaptureList cs = true →
       Ast.matchAllAltF fuel cs input pos caps = some results →
       ∀ r ∈ results, r.captures = caps)
    ∧ (∀ child input pos caps count mx results, Ast.noCapture child = true →
       Ast.quantLoopF fuel child input pos caps count mx = some results →
       ∀ r ∈ results, r.captures = caps)
    ∧ (∀ child input pos caps count results, Ast.noCapture child = true →
       Ast.matchExactlyF fuel child input pos caps count = some results →
       ∀ r ∈ results, r.captures = caps)
    ∧ (∀ child input current k results caps, Ast.noCapture child = true →
       Ast.iterExactF fuel child input current k = some results →
       (∀ m ∈ current, m.captures = caps) → ∀ r ∈ results, r.captures = caps)
    ∧ (∀ child input ms results caps, Ast.noCapture child = true →
       Ast.stepExactF fuel child input ms = some results →
       (∀ m ∈ ms, m.captures = caps) → ∀ r ∈ results, r.captures = caps) := by
  intro fuel
  induction fuel with
  | zero =>
    refine ⟨?_, ?_, ?_, ?_, ?_, ?_, ?_, ?_⟩
    · intro node input pos caps results hnc h
      simp [Ast.matchAllF] at h
    · intro children input pos caps results hnc h
      simp [Ast.matchAllChildrenF] at h
    · intro rest input ms results caps hnc h
      simp [Ast.seqRestF] at h
    · intro cs input pos caps results hnc h
      simp [Ast.matchAllAltF] at h
    · intro child input pos caps count mx results hnc h
      simp [Ast.quantLoopF] at h
    · intro child input pos caps count results hnc h
      simp [Ast.matchExactlyF] at h
    · intro child input current k results caps hnc h
      simp [Ast.iterExactF] at h
    · intro child input ms results caps hnc h
      simp [Ast.stepExactF] at h
  | succ fuel ih =>
    obtain ⟨ihAll, ihChildren, ihSeqRest, ihAlt, ihQuant, ihExact, ihIter, ihStep⟩ := ih
    refine ⟨?_, ?_, ?_, ?_, ?_, ?_, ?_, ?_⟩
    · -- matchAllF
      intro node input pos caps results hnc h r hr
      cases node with
      | seq children =>
        exact ihChildren children input pos caps results (by simpa [Ast.noCapture] using hnc)
          h r hr
      | lit v =>
        simp only [Ast.matchAllF] at h
        cases hq : input.get? pos with
        | some b =>
          rw [hq] at h
          have hres := Option.some.inj h
          subst hres
          have hr2 : r ∈ (if v = b then [(⟨pos + 1, caps⟩ : Ast.MatchResult)] else []) := hr
          by_cases hvb : v = b
          · rw [if_pos hvb, List.mem_singleton] at hr2
            subst hr2
            rfl
          · rw [if_neg hvb] at hr2
            simp at hr2
        | none =>
          rw [hq] at h
          have hres := Option.some.inj h
          subst hres
          have hr2 : r ∈ ([] : List Ast.MatchResult) := hr
          simp at hr2
      | charClass cs neg =>
        simp only [Ast.matchAllF] at h
        cases hq : input.get? pos with
        | some b =>
          rw [hq] at h
          have hres := Option.some.inj h
          subst hres
          have hr2 : r ∈ (if cs.contains b ≠ neg
              then [(⟨pos + 1, caps⟩ : Ast.MatchResult)] else []) := hr
          by_cases hc : (cs.contains b ≠ neg)
          · rw [if_pos hc, List.mem_singleton] at hr2
            subst hr2
            rfl
          · rw [if_neg hc] at hr2
            simp at hr2
        | none =>
          rw [hq] at h
          have hres := Option.some.inj h
          subst hres
          have hr2 : r ∈ ([] : List Ast.MatchResult) := hr
          simp at hr2
      | startAnchor =>
        simp only [Ast.matchAllF] at h
        have hres := Option.some.inj h
        subst hres
        have hr2 : r ∈ (if pos = 0 then [(⟨pos, caps⟩ : Ast.MatchResult)] else []) := hr
        by_cases hp : pos = 0
        · rw [if_pos hp, List.mem_singleton] at hr2
          subst hr2
          rfl
        · rw [if_neg hp] at hr2
          simp at hr2
      | endAnchor =>
        simp only [Ast.matchAllF] at h
        have hres := Option.some.inj h
        subst hres
        have hr2 : r ∈ (if pos = input.length then [(⟨pos, caps⟩ : Ast.MatchResult)] else []) := hr
        by_cases hp : pos = input.length
        · rw [if_pos hp, List.mem_singleton] at hr2
          subst hr2
          rfl
        · rw [if_neg hp] at hr2
          simp at hr2
      | dot =>
        simp only [Ast.matchAllF] at h
        cases hq : input.get? pos with
        | some b =>
          rw [hq] at h
          have hres := Option.some.inj h
          subst hres
          have hr2 : r ∈ [(⟨pos + 1, caps⟩ : Ast.MatchResult)] := hr
          rw [List.mem_singleton] at hr2
          subst hr2
          rfl
        | none =>
          rw [hq] at h
          have hres := Option.some.inj h
          subst hres
          have hr2 : r ∈ ([] : List Ast.MatchResult) := hr
          simp at hr2
      | capture child gidx =>
        simp [Ast.noCapture] at hnc
      | alternation cs =>
        exact ihAlt cs input pos caps results (by simpa [Ast.noCapture] using hnc) h r hr
      | quant child mn mx greedy =>
        have hnc2 : Ast.noCapture child = true := by simpa [Ast.noCapture] using hnc
        simp only [Ast.matchAllF] at h
        cases hm : Ast.quantLoopF fuel child input pos caps mn mx with
        | none => rw [hm] at h; simp at h
        | some all =>
          rw [hm] at h
          have hres := Option.some.inj h
          subst hres
          have hall := ihQuant child input pos caps mn mx all hnc2 hm
          by_cases hemp : all = []
          · rw [if_pos hemp] at hr
            simp at hr
          · rw [if_neg hemp] at hr
            by_cases hg : greedy
            · rw [if_pos hg] at hr
              exact hall r (List.mem_reverse.mp hr)
            · rw [if_neg hg] at hr
              exact hall r hr
    · -- matchAllChildrenF
      intro children input pos caps results hnc h r hr
      cases children with
      | nil =>
        simp [Ast.matchAllChildrenF] at h
        subst h
        rw [List.mem_singleton] at hr
        subst hr
        rfl
      | cons child rest =>
        have hnc2 := by simpa [Ast.noCaptureList, Bool.and_eq_true] using hnc
        simp only [Ast.matchAllChildrenF] at h
        cases hm : Ast.matchAllF fuel child input pos caps with
        | none => rw [hm] at h; simp at h
        | some ms =>
          rw [hm] at h
          have hbase := ihAll child input pos caps ms hnc2.1 hm
          exact ihSeqRest rest input ms results caps hnc2.2 h hbase r hr
    · -- seqRestF
      intro rest input ms results caps hnc h hms r hr
      cases ms with
      | nil =>
        simp [Ast.seqRestF] at h
        subst h
        simp at hr
      | cons m ms2 =>
        simp only [Ast.seqRestF] at h
        cases hm : Ast.matchAllChildrenF fuel rest input m.endPos m.captures with
        | none => rw [hm] at h; simp at h
        | some rs =>
          rw [hm] at h
          cases hm2 : Ast.seqRestF fuel rest input ms2 with
          | none => rw [hm2] at h; simp at h
          | some rss =>
            rw [hm2] at h
            simp at h
            subst h
            have hmc : m.captures = caps := hms m (List.mem_cons_self m ms2)
            have h1 := ihChildren rest input m.endPos m.captures rs hnc hm
            have h2 := ihSeqRest rest input ms2 rss caps hnc hm2
              (fun x hx => hms x (List.mem_cons_of_mem m hx))
            rcases List.mem_append.mp hr with hra | hrb
            · rw [h1 r hra, hmc]
            · exact h2 r hrb
    · -- matchAllAltF
      intro cs input pos caps results hnc h r hr
      cases cs with
      | nil =>
        simp [Ast.matchAllAltF] at h
        subst h
        simp at hr
      | cons c rest =>
        have hnc2 := by simpa [Ast.noCaptureList, Bool.and_eq_true] using hnc
        simp only [Ast.matchAllAltF] at h
        cases hm : Ast.matchAllF fuel c input pos caps with
        | none => rw [hm] at h; simp at h
        | some rs =>
          rw [hm] at h
          cases hm2 : Ast.matchAllAltF fuel rest input pos caps with
          | none => rw [hm2] at h; simp at h
          | some rss =>
            rw [hm2] at h
            simp at h
            subst h
            rcases List.mem_append.mp hr with hra | hrb
            · exact ihAll c input pos caps rs hnc2.1 hm r hra
            · exact ihAlt rest input pos caps rss hnc2.2 hm2 r hrb
    · -- quantLoopF
      intro child input pos caps count mx results hnc h r hr
      simp only [Ast.quantLoopF] at h
      by_cases hstop : mx ≠ -1 ∧ mx < (count : Int)
      · simp [hstop] at h
        subst h
        simp at hr
      · simp [hstop] at h
        cases hm : Ast.matchExactlyF fuel child input pos caps count with
        | none => rw [hm] at h; simp at h
        | some exact0 =>
          rw [hm] at h
          cases exact0 with
          | nil =>
            simp at h
            subst h
            simp at hr
          | cons e es =>
            cases hm2 : Ast.quantLoopF fuel child input pos caps (count + 1) mx with
            | none => rw [hm2] at h; simp at h
            | some rest =>
              rw [hm2] at h
              simp at h
              subst h
              rcases List.mem_cons.mp hr with hre | hr3
              · exact ihExact child input pos caps count (e :: es) hnc hm r
                  (hre ▸ List.mem_cons_self e es)
              · rcases List.mem_append.mp hr3 with hra | hrb
                · exact ihExact child input pos caps count (e :: es) hnc hm r
                    (List.mem_cons_of_mem e hra)
                · exact ihQuant child input pos caps (count + 1) mx rest hnc hm2 r hrb
    · -- matchExactlyF
      intro child input pos caps count results hnc h r hr
      cases count with
      | zero =>
        cases child with
        | capture c g => simp [Ast.noCapture] at hnc
        | seq cs =>
          simp only [Ast.matchExactlyF] at h
          have hres := Option.some.inj h
          subst hres
          have hr2 : r ∈ [(⟨pos, caps⟩ : Ast.MatchResult)] := hr
          rw [List.mem_singleton] at hr2
          subst hr2
          rfl
        | lit v =>
          simp only [Ast.matchExactlyF] at h
          have hres := Option.some.inj h
          subst hres
          have hr2 : r ∈ [(⟨pos, caps⟩ : Ast.MatchResult)] := hr
          rw [List.mem_singleton] at hr2
          subst hr2
          rfl
        | charClass cs neg =>
          simp only [Ast.matchExactlyF] at h
          have hres := Option.some.inj h
          subst hres
          have hr2 : r ∈ [(⟨pos, caps⟩ : Ast.MatchResult)] := hr
          rw [List.mem_singleton] at hr2
          subst hr2
          rfl
        | startAnchor =>
          simp only [Ast.matchExactlyF] at h
          have hres := Option.some.inj h
          subst hres
          have hr2 : r ∈ [(⟨pos, caps⟩ : Ast.MatchResult)] := hr
          rw [List.mem_singleton] at hr2
          subst hr2
          rfl
        | endAnchor =>
          simp only [Ast.matchExactlyF] at h
          have hres := Option.some.inj h
          subst hres
          have hr2 : r ∈ [(⟨pos, caps⟩ : Ast.MatchResult)] := hr
          rw [List.mem_singleton] at hr2
          subst hr2
          rfl
        | quant c mn mx g =>
          simp only [Ast.matchExactlyF] at h
          have hres := Option.some.inj h
          subst hres
          have hr2 : r ∈ [(⟨pos, caps⟩ : Ast.MatchResult)] := hr
          rw [List.mem_singleton] at hr2
          subst hr2
          rfl
        | dot =>
          simp only [Ast.matchExactlyF] at h
          have hres := Option.some.inj h
          subst hres
          have hr2 : r ∈ [(⟨pos, caps⟩ : Ast.MatchResult)] := hr
          rw [List.mem_singleton] at hr2
          subst hr2
          rfl
        | alternation cs =>
          simp only [Ast.matchExactlyF] at h
          have hres := Option.some.inj h
          subst hres
          have hr2 : r ∈ [(⟨pos, caps⟩ : Ast.MatchResult)] := hr
          rw [List.mem_singleton] at hr2
          subst hr2
          rfl
      | succ k =>
        simp only [Ast.matchExactlyF] at h
        exact ihIter child input [⟨pos, caps⟩] (k + 1) results caps hnc h
          (by intro m hm; rw [List.mem_singleton] at hm; subst hm; rfl) r hr
    · -- iterExactF
      intro child input current k results caps hnc h hcur r hr
      cases k with
      | zero =>
        simp [Ast.iterExactF] at h
        subst h
        exact hcur r hr
      | succ k2 =>
        simp only [Ast.iterExactF] at h
        cases hm : Ast.stepExactF fuel child input current with
        | none => rw [hm] at h; simp at h
        | some next =>
          rw [hm] at h
          cases next with
          | nil =>
            simp at h
            subst h
            simp at hr
          | cons n ns =>
            have hnext := ihStep child input current (n :: ns) caps hnc hm hcur
            exact ihIter child input (n :: ns) k2 results caps hnc h hnext r hr
    · -- stepExactF
      intro child input ms results caps hnc h hms r hr
      cases ms with
      | nil =>
        simp [Ast.stepExactF] at h
        subst h
        simp at hr
      | cons m ms2 =>
        simp only [Ast.stepExactF] at h
        cases hm : Ast.matchAllF fuel child input m.endPos m.captures with
        | none => rw [hm] at h; simp at h
        | some rs =>
          rw [hm] at h
          cases hm2 : Ast.stepExactF fuel child input ms2 with
          | none => rw [hm2] at h; simp at h
          | some rss =>
            rw [hm2] at h
            simp at h
            subst h
            have hmc : m.captures = caps := hms m (List.mem_cons_self m ms2)
            rcases List.mem_append.mp hr with hra | hrb
            · rw [ihAll child input m.endPos m.captures rs hnc hm r hra, hmc]
            · exact ihStep child input ms2 rss caps hnc hm2
                (fun x hx => hms x (List.mem_cons_of_mem m hx)) r hrb

theorem advance_inv (p : Ast.Parser) :
    (p.advance).2.pattern = p.pattern ∧ (p.advance).2.nextGroupId = p.nextGroupId := by
  simp only [Ast.Parser.advance]
  cases hq : p.pattern.get? p.pos with
  | none => exact ⟨rfl, rfl⟩
  | some c => exact ⟨rfl, rfl⟩

theorem classCharsF_inv : ∀ fuel (p : Ast.Parser) acc,
    (Ast.classCharsF fuel p acc).2.pattern = p.pattern ∧
    (Ast.classCharsF fuel p acc).2.nextGroupId = p.nextGroupId := by
  intro fuel
  induction fuel with
  | zero => intro p acc; exact ⟨rfl, rfl⟩
  | succ fuel ih =>
    intro p acc
    cases hq : p.pattern.get? p.pos with
    | none =>
      have he : Ast.classCharsF (fuel + 1) p acc = (acc, p) := by
        conv_lhs => rw [Ast.classCharsF]; rw [hq]
      rw [he]
      exact ⟨rfl, rfl⟩
    | some c =>
      have he : Ast.classCharsF (fuel + 1) p acc
          = (if c = ch ']' then (acc, p)
             else Ast.classCharsF fuel { p with pos := p.pos + 1 } (acc ++ [c])) := by
        conv_lhs => rw [Ast.classCharsF]; rw [hq]
      rw [he]
      by_cases hc : c = ch ']'
      · rw [if_pos hc]
        exact ⟨rfl, rfl⟩
      · rw [if_neg hc]
        exact ih { p with pos := p.pos + 1 } (acc ++ [c])

theorem parseEscape_inv (p : Ast.Parser) (node : Ast.Node) (p2 : Ast.Parser)
    (h : p.parseEscape = .ok (node, p2)) :
    Ast.noCapture node = true ∧ p2.nextGroupId = p.nextGroupId ∧ p2.pattern = p.pattern := by
  have hadv := advance_inv p
  have h2 : (if (p.advance).1 = ch 'd' then
        (GoResult.ok (Ast.Node.charClass (bytes "0123456789") false, (p.advance).2))
      else if (p.advance).1 = ch 'w' then
        .ok (.charClass
          (bytes "abcdefghijklmnopqrstuvwxyzABCDEFGHIJKLMNOPQRSTUVWXYZ0123456789_")
          false, (p.advance).2)
      else if (p.advance).1 = ch 's' then
        .ok (.charClass (bytes " \t\n\r\x0c\x0b") false, (p.advance).2)
      else .ok (.lit (p.advance).1, (p.advance).2)) = GoResult.ok (node, p2) := h
  by_cases hd : (p.advance).1 = ch 'd'
  · rw [if_pos hd] at h2
    simp only [GoResult.ok.injEq, Prod.mk.injEq] at h2
    obtain ⟨ha, hb⟩ := h2
    subst ha
    subst hb
    exact ⟨rfl, hadv.2, hadv.1⟩
  · rw [if_neg hd] at h2
    by_cases hw : (p.advance).1 = ch 'w'
    · rw [if_pos hw] at h2
      simp only [GoResult.ok.injEq, Prod.mk.injEq] at h2
      obtain ⟨ha, hb⟩ := h2
      subst ha
      subst hb
      exact ⟨rfl, hadv.2, hadv.1⟩
    · rw [if_neg hw] at h2
      by_cases hs : (p.advance).1 = ch 's'
      · rw [if_pos hs] at h2
        simp only [GoResult.ok.injEq, Prod.mk.injEq] at h2
        obtain ⟨ha, hb⟩ := h2
        subst ha
        subst hb
        exact ⟨rfl, hadv.2, hadv.1⟩
      · rw [if_neg hs] at h2
        simp only [GoResult.ok.injEq, Prod.mk.injEq] at h2
        obtain ⟨ha, hb⟩ := h2
        subst ha
        subst hb
        exact ⟨rfl, hadv.2, hadv.1⟩

theorem parseCharClass_inv (p : Ast.Parser) (node : Ast.Node) (p2 : Ast.Parser)
    (h : p.parseCharClass = .ok (node, p2)) :
    Ast.noCapture node = true ∧ p2.nextGroupId = p.nextGroupId ∧ p2.pattern = p.pattern := by
  by_cases hcar : p.peek = ch '^'
  · have h2 : (match Ast.classChars (p.advance).2 [] with
        | (chars, p2c) =>
          if p2c.isEOF then (GoResult.err "expecting ]")
          else GoResult.ok (Ast.Node.charClass chars true, (p2c.advance).2))
        = GoResult.ok (node, p2) := by
      rw [show (GoResult.ok (node, p2) : GoResult (Ast.Node × Ast.Parser))
            = p.parseCharClass from h.symm]
      simp only [Ast.Parser.parseCharClass]
      rw [if_pos hcar]
    rcases hq : Ast.classChars (p.advance).2 [] with ⟨chars0, p20⟩
    rw [hq] at h2
    have h3 : (if p20.isEOF then (GoResult.err "expecting ]")
        else GoResult.ok (Ast.Node.charClass chars0 true, (p20.advance).2))
        = GoResult.ok (node, p2) := h2
    by_cases heof : p20.isEOF = true
    · rw [if_pos heof] at h3
      exact absurd h3 (by simp)
    · rw [if_neg heof] at h3
      simp only [GoResult.ok.injEq, Prod.mk.injEq] at h3
      obtain ⟨ha, hb⟩ := h3
      subst ha
      subst hb
      have hcinv := classCharsF_inv ((p.advance).2.pattern.length - (p.advance).2.pos + 1)
        (p.advance).2 []
      rw [show Ast.classCharsF ((p.advance).2.pattern.length - (p.advance).2.pos + 1)
            (p.advance).2 [] = Ast.classChars (p.advance).2 [] from rfl, hq] at hcinv
      have ha1 := advance_inv p
      have ha2 := advance_inv p20
      exact ⟨rfl, by rw [ha2.2, hcinv.2, ha1.2], by rw [ha2.1, hcinv.1, ha1.1]⟩
  · have h2 : (match Ast.classChars p [] with
        | (chars, p2c) =>
          if p2c.isEOF then (GoResult.err "expecting ]")
          else GoResult.ok (Ast.Node.charClass chars false, (p2c.advance).2))
        = GoResult.ok (node, p2) := by
      rw [show (GoResult.ok (node, p2) : GoResult (Ast.Node × Ast.Parser))
            = p.parseCharClass from h.symm]
      simp only [Ast.Parser.parseCharClass]
      rw [if_neg hcar]
    rcases hq : Ast.classChars p [] with ⟨chars0, p20⟩
    rw [hq] at h2
    have h3 : (if p20.isEOF then (GoResult.err "expecting ]")
        else GoResult.ok (Ast.Node.charClass chars0 false, (p20.advance).2))
        = GoResult.ok (node, p2) := h2
    by_cases heof : p20.isEOF = true
    · rw [if_pos heof] at h3
      exact absurd h3 (by simp)
    · rw [if_neg heof] at h3
      simp only [GoResult.ok.injEq, Prod.mk.injEq] at h3
      obtain ⟨ha, hb⟩ := h3
      subst ha
      subst hb
      have hcinv := classCharsF_inv (p.pattern.length - p.pos + 1) p []
      rw [show Ast.classCharsF (p.pattern.length - p.pos + 1) p [] = Ast.classChars p []
            from rfl, hq] at hcinv
      have ha2 := advance_inv p20
      exact ⟨rfl, by rw [ha2.2, hcinv.2], by rw [ha2.1, hcinv.1]⟩

theorem noCaptureList_append (xs ys : List Ast.Node) :
    Ast.noCaptureList (xs ++ ys) = (Ast.noCaptureList xs && Ast.noCaptureList ys) := by
  induction xs with
  | nil => simp [Ast.noCaptureList]
  | cons x xs ih => simp [Ast.noCaptureList, ih, Bool.and_assoc]

theorem parser_no_paren : ∀ fuel : Nat,
    (∀ p node p2, (ch '(') ∉ p.pattern →
       Ast.parseExpressionF fuel p = .ok (node, p2) →
       Ast.noCapture node = true ∧ p2.nextGroupId = p.nextGroupId ∧ p2.pattern = p.pattern)
    ∧ (∀ p alts node p2, (ch '(') ∉ p.pattern → Ast.noCaptureList alts = true →
       Ast.parseAlternativesF fuel p alts = .ok (node, p2) →
       Ast.noCapture node = true ∧ p2.nextGroupId = p.nextGroupId ∧ p2.pattern = p.pattern)
    ∧ (∀ p nodes0 nodes p2, (ch '(') ∉ p.pattern → Ast.noCaptureList nodes0 = true →
       Ast.parseNodesF fuel p nodes0 = .ok (nodes, p2) →
       Ast.noCaptureList nodes = true ∧ p2.nextGroupId = p.nextGroupId ∧ p2.pattern = p.pattern)
    ∧ (∀ p node p2, (ch '(') ∉ p.pattern →
       Ast.parseQuantifiedF fuel p = .ok (node, p2) →
       Ast.noCapture node = true ∧ p2.nextGroupId = p.nextGroupId ∧ p2.pattern = p.pattern)
    ∧ (∀ p node p2, (ch '(') ∉ p.pattern →
       Ast.parseAtomF fuel p = .ok (node, p2) →
       Ast.noCapture node = true ∧ p2.nextGroupId = p.nextGroupId ∧ p2.pattern = p.pattern) := by
  intro fuel
  induction fuel with
  | zero =>
    refine ⟨?_, ?_, ?_, ?_, ?_⟩
    · intro p node p2 hnp h
      simp [Ast.parseExpressionF] at h
    · intro p alts node p2 hnp halts h
      simp [Ast.parseAlternativesF] at h
    · intro p nodes0 nodes p2 hnp hn0 h
      simp [Ast.parseNodesF] at h
    · intro p node p2 hnp h
      simp [Ast.parseQuantifiedF] at h
    · intro p node p2 hnp h
      simp [Ast.parseAtomF] at h
  | succ fuel ih =>
    obtain ⟨ihExpr, ihAlts, ihNodes, ihQuant, ihAtom⟩ := ih
    refine ⟨?_, ?_, ?_, ?_, ?_⟩
    · -- parseExpressionF
      intro p node p2 hnp h
      simp only [Ast.parseExpressionF] at h
      exact ihAlts p [] node p2 hnp rfl h
    · -- parseAlternativesF
      intro p alts node p2 hnp halts h
      simp only [Ast.parseAlternativesF] at h
      cases hn : Ast.parseNodesF fuel p [] with
      | err m => rw [hn] at h; exact absurd h (by simp)
      | panicked m => rw [hn] at h; exact absurd h (by simp)
      | timeout => rw [hn] at h; exact absurd h (by simp)
      | ok np1 =>
        obtain ⟨nodes, p1⟩ := np1
        rw [hn] at h
        have hinv := ihNodes p [] nodes p1 hnp rfl hn
        cases nodes with
        | nil =>
          have h2 : (GoResult.err "empty pattern" : GoResult (Ast.Node × Ast.Parser))
              = GoResult.ok (node, p2) := h
          exact absurd h2 (by simp)
        | cons n ns =>
          cases ns with
          | nil =>
            have hA : Ast.noCapture n = true := by
              simpa [Ast.noCaptureList] using hinv.1
            have h2 : (if p1.peek = ch '|' then
                  Ast.parseAlternativesF fuel (p1.advance).2 (alts ++ [n])
                else
                  match alts ++ [n] with
                  | [a] => GoResult.ok (a, p1)
                  | _ => GoResult.ok (Ast.Node.alternation (alts ++ [n]), p1))
                = GoResult.ok (node, p2) := h
            have hnc1 : Ast.noCaptureList (alts ++ [n]) = true := by
              simp [noCaptureList_append, halts, Ast.noCaptureList, hA]
            by_cases hpipe : p1.peek = ch '|'
            · rw [if_pos hpipe] at h2
              have hnp2 : (ch '(') ∉ (p1.advance).2.pattern := by
                rw [(advance_inv p1).1, hinv.2.2]; exact hnp
              have hres := ihAlts (p1.advance).2 (alts ++ [n]) node p2 hnp2 hnc1 h2
              exact ⟨hres.1, by rw [hres.2.1, (advance_inv p1).2, hinv.2.1],
                by rw [hres.2.2, (advance_inv p1).1, hinv.2.2]⟩
            · rw [if_neg hpipe] at h2
              cases halt1 : alts ++ [n] with
              | nil => exact absurd halt1 (by simp)
              | cons x xs =>
                rw [halt1] at h2 hnc1
                cases xs with
                | nil =>
                  have h3 : GoResult.ok (x, p1) = GoResult.ok (node, p2) := h2
                  simp only [GoResult.ok.injEq, Prod.mk.injEq] at h3
                  obtain ⟨ha, hb⟩ := h3
                  subst ha
                  subst hb
                  exact ⟨by simpa [Ast.noCaptureList] using hnc1, hinv.2.1, hinv.2.2⟩
                | cons y ys =>
                  have h3 : GoResult.ok (Ast.Node.alternation (x :: y :: ys), p1)
                      = GoResult.ok (node, p2) := h2
                  simp only [GoResult.ok.injEq, Prod.mk.injEq] at h3
                  obtain ⟨ha, hb⟩ := h3
                  subst ha
                  subst hb
                  exact ⟨by simp only [Ast.noCapture]; exact hnc1, hinv.2.1, hinv.2.2⟩
          | cons m ms =>
            have hA : Ast.noCapture (Ast.Node.seq (n :: m :: ms)) = true := by
              simp only [Ast.noCapture]; exact hinv.1
            have h2 : (if p1.peek = ch '|' then
                  Ast.parseAlternativesF fuel (p1.advance).2 (alts ++ [Ast.Node.seq (n :: m :: ms)])
                else
                  match alts ++ [Ast.Node.seq (n :: m :: ms)] with
                  | [a] => GoResult.ok (a, p1)
                  | _ => GoResult.ok (Ast.Node.alternation (alts ++ [Ast.Node.seq (n :: m :: ms)]), p1))
                = GoResult.ok (node, p2) := h
            have hnc1 : Ast.noCaptureList (alts ++ [Ast.Node.seq (n :: m :: ms)]) = true := by
              simp [noCaptureList_append, halts, Ast.noCaptureList, hA]
            by_cases hpipe : p1.peek = ch '|'
            · rw [if_pos hpipe] at h2
              have hnp2 : (ch '(') ∉ (p1.advance).2.pattern := by
                rw [(advance_inv p1).1, hinv.2.2]; exact hnp
              have hres := ihAlts (p1.advance).2 (alts ++ [Ast.Node.seq (n :: m :: ms)]) node p2 hnp2 hnc1 h2
              exact ⟨hres.1, by rw [hres.2.1, (advance_inv p1).2, hinv.2.1],
                by rw [hres.2.2, (advance_inv p1).1, hinv.2.2]⟩
            · rw [if_neg hpipe] at h2
              cases halt1 : alts ++ [Ast.Node.seq (n :: m :: ms)] with
              | nil => exact absurd halt1 (by simp)
              | cons x xs =>
                rw [halt1] at h2 hnc1
                cases xs with
                | nil =>
                  have h3 : GoResult.ok (x, p1) = GoResult.ok (node, p2) := h2
                  simp only [GoResult.ok.injEq, Prod.mk.injEq] at h3
                  obtain ⟨ha, hb⟩ := h3
                  subst ha
                  subst hb
                  exact ⟨by simpa [Ast.noCaptureList] using hnc1, hinv.2.1, hinv.2.2⟩
                | cons y ys =>
                  have h3 : GoResult.ok (Ast.Node.alternation (x :: y :: ys), p1)
                      = GoResult.ok (node, p2) := h2
                  simp only [GoResult.ok.injEq, Prod.mk.injEq] at h3
                  obtain ⟨ha, hb⟩ := h3
                  subst ha
                  subst hb
                  exact ⟨by simp only [Ast.noCapture]; exact hnc1, hinv.2.1, hinv.2.2⟩
    · -- parseNodesF
      intro p nodes0 nodes p2 hnp hn0 h
      simp only [Ast.parseNodesF] at h
      by_cases hstop : p.isEOF ∨ p.peek = ch '|' ∨ p.peek = ch ')'
      · rw [if_pos hstop] at h
        simp only [GoResult.ok.injEq, Prod.mk.injEq] at h
        obtain ⟨ha, hb⟩ := h
        subst ha
        subst hb
        exact ⟨hn0, rfl, rfl⟩
      · rw [if_neg hstop] at h
        cases hq2 : Ast.parseQuantifiedF fuel p with
        | err m => rw [hq2] at h; exact absurd h (by simp)
        | panicked m => rw [hq2] at h; exact absurd h (by simp)
        | timeout => rw [hq2] at h; exact absurd h (by simp)
        | ok ap1 =>
          obtain ⟨atom, p1⟩ := ap1
          rw [hq2] at h
          have h2 : Ast.parseNodesF fuel p1 (nodes0 ++ [atom]) = GoResult.ok (nodes, p2) := h
          have hq := ihQuant p atom p1 hnp hq2
          have hnp2 : (ch '(') ∉ p1.pattern := by rw [hq.2.2]; exact hnp
          have hnc1 : Ast.noCaptureList (nodes0 ++ [atom]) = true := by
            simp [noCaptureList_append, hn0, Ast.noCaptureList, hq.1]
          have hres := ihNodes p1 (nodes0 ++ [atom]) nodes p2 hnp2 hnc1 h2
          exact ⟨hres.1, by rw [hres.2.1, hq.2.1], by rw [hres.2.2, hq.2.2]⟩
    · -- parseQuantifiedF
      intro p node p2 hnp h
      simp only [Ast.parseQuantifiedF] at h
      cases hq2 : Ast.parseAtomF fuel p with
      | err m => rw [hq2] at h; exact absurd h (by simp)
      | panicked m => rw [hq2] at h; exact absurd h (by simp)
      | timeout => rw [hq2] at h; exact absurd h (by simp)
      | ok ap1 =>
        obtain ⟨atom, p1⟩ := ap1
        rw [hq2] at h
        have hA := ihAtom p atom p1 hnp hq2
        have h2 : (if p1.isEOF ∨ ¬ Ast.isQuantifier p1.peek then GoResult.ok (atom, p1)
            else
              if (p1.advance).1 = ch '*' then
                GoResult.ok (Ast.Node.quant atom 0 (-1)
                  (if (p1.advance).2.peek = ch '?' then (false, ((p1.advance).2.advance).2)
                   else (true, (p1.advance).2)).1,
                  (if (p1.advance).2.peek = ch '?' then (false, ((p1.advance).2.advance).2)
                   else (true, (p1.advance).2)).2)
              else if (p1.advance).1 = ch '+' then
                GoResult.ok (Ast.Node.quant atom 1 (-1)
                  (if (p1.advance).2.peek = ch '?' then (false, ((p1.advance).2.advance).2)
                   else (true, (p1.advance).2)).1,
                  (if (p1.advance).2.peek = ch '?' then (false, ((p1.advance).2.advance).2)
                   else (true, (p1.advance).2)).2)
              else if (p1.advance).1 = ch '?' then
                GoResult.ok (Ast.Node.quant atom 0 1
                  (if (p1.advance).2.peek = ch '?' then (false, ((p1.advance).2.advance).2)
                   else (true, (p1.advance).2)).1,
                  (if (p1.advance).2.peek = ch '?' then (false, ((p1.advance).2.advance).2)
                   else (true, (p1.advance).2)).2)
              else GoResult.err "unexpected quantifier") = GoResult.ok (node, p2) := h
        have hG : (if (p1.advance).2.peek = ch '?' then (false, ((p1.advance).2.advance).2)
              else (true, (p1.advance).2)).2.pattern = p1.pattern ∧
            (if (p1.advance).2.peek = ch '?' then (false, ((p1.advance).2.advance).2)
              else (true, (p1.advance).2)).2.nextGroupId = p1.nextGroupId := by
          by_cases hqm : (p1.advance).2.peek = ch '?'
          · rw [if_pos hqm]
            exact ⟨by rw [(advance_inv (p1.advance).2).1, (advance_inv p1).1],
              by rw [(advance_inv (p1.advance).2).2, (advance_inv p1).2]⟩
          · rw [if_neg hqm]
            exact ⟨(advance_inv p1).1, (advance_inv p1).2⟩
        by_cases hstop : p1.isEOF ∨ ¬ Ast.isQuantifier p1.peek
        · rw [if_pos hstop] at h2
          simp only [GoResult.ok.injEq, Prod.mk.injEq] at h2
          obtain ⟨ha, hb⟩ := h2
          subst ha
          subst hb
          exact hA
        · rw [if_neg hstop] at h2
          by_cases hstar : (p1.advance).1 = ch '*'
          · rw [if_pos hstar] at h2
            simp only [GoResult.ok.injEq, Prod.mk.injEq] at h2
            obtain ⟨ha, hb⟩ := h2
            subst ha
            subst hb
            exact ⟨by simp only [Ast.noCapture]; exact hA.1,
              by rw [hG.2, hA.2.1], by rw [hG.1, hA.2.2]⟩
          · rw [if_neg hstar] at h2
            by_cases hplus : (p1.advance).1 = ch '+'
            · rw [if_pos hplus] at h2
              simp only [GoResult.ok.injEq, Prod.mk.injEq] at h2
              obtain ⟨ha, hb⟩ := h2
              subst ha
              subst hb
              exact ⟨by simp only [Ast.noCapture]; exact hA.1,
                by rw [hG.2, hA.2.1], by rw [hG.1, hA.2.2]⟩
            · rw [if_neg hplus] at h2
              by_cases hques : (p1.advance).1 = ch '?'
              · rw [if_pos hques] at h2
                simp only [GoResult.ok.injEq, Prod.mk.injEq] at h2
                obtain ⟨ha, hb⟩ := h2
                subst ha
                subst hb
                exact ⟨by simp only [Ast.noCapture]; exact hA.1,
                  by rw [hG.2, hA.2.1], by rw [hG.1, hA.2.2]⟩
              · rw [if_neg hques] at h2
                exact absurd h2 (by simp)
    · -- parseAtomF
      intro p node p2 hnp h
      simp only [Ast.parseAtomF] at h
      cases hq : p.pattern.get? p.pos with
      | none =>
        have hadv : p.advance = (0, p) := by
          simp only [Ast.Parser.advance]
          rw [hq]
        rw [hadv] at h
        have h2 : (if (0 : Nat) = ch '\\' then Ast.Parser.parseEscape p
            else if (0 : Nat) = ch '[' then Ast.Parser.parseCharClass p
            else if (0 : Nat) = ch '(' then Ast.parseGroupF fuel p
            else if (0 : Nat) = ch '^' then GoResult.ok (Ast.Node.startAnchor, p)
            else if (0 : Nat) = ch '$' then GoResult.ok (Ast.Node.endAnchor, p)
            else if (0 : Nat) = ch '.' then GoResult.ok (Ast.Node.dot, p)
            else GoResult.ok (Ast.Node.lit 0, p)) = GoResult.ok (node, p2) := h
        rw [if_neg (by decide), if_neg (by decide), if_neg (by decide), if_neg (by decide),
          if_neg (by decide), if_neg (by decide)] at h2
        simp only [GoResult.ok.injEq, Prod.mk.injEq] at h2
        obtain ⟨ha, hb⟩ := h2
        subst ha
        subst hb
        exact ⟨rfl, rfl, rfl⟩
      | some c =>
        have hmem : c ∈ p.pattern := List.get?_mem hq
        have hadv : p.advance = (c, { p with pos := p.pos + 1 }) := by
          simp only [Ast.Parser.advance]
          rw [hq]
        rw [hadv] at h
        have h2 : (if c = ch '\\' then Ast.Parser.parseEscape { p with pos := p.pos + 1 }
            else if c = ch '[' then Ast.Parser.parseCharClass { p with pos := p.pos + 1 }
            else if c = ch '(' then Ast.parseGroupF fuel { p with pos := p.pos + 1 }
            else if c = ch '^' then GoResult.ok (Ast.Node.startAnchor, { p with pos := p.pos + 1 })
            else if c = ch '$' then GoResult.ok (Ast.Node.endAnchor, { p with pos := p.pos + 1 })
            else if c = ch '.' then GoResult.ok (Ast.Node.dot, { p with pos := p.pos + 1 })
            else GoResult.ok (Ast.Node.lit c, { p with pos := p.pos + 1 }))
            = GoResult.ok (node, p2) := h
        by_cases hesc : c = ch '\\'
        · rw [if_pos hesc] at h2
          have hres := parseEscape_inv { p with pos := p.pos + 1 } node p2 h2
          exact ⟨hres.1, hres.2.1, hres.2.2⟩
        · rw [if_neg hesc] at h2
          by_cases hbr : c = ch '['
          · rw [if_pos hbr] at h2
            have hres := parseCharClass_inv { p with pos := p.pos + 1 } node p2 h2
            exact ⟨hres.1, hres.2.1, hres.2.2⟩
          · rw [if_neg hbr] at h2
            by_cases hpar : c = ch '('
            · exact absurd (hpar ▸ hmem) hnp
            · rw [if_neg hpar] at h2
              by_cases hcarA : c = ch '^'
              · rw [if_pos hcarA] at h2
                simp only [GoResult.ok.injEq, Prod.mk.injEq] at h2
                obtain ⟨ha, hb⟩ := h2
                subst ha
                subst hb
                exact ⟨rfl, rfl, rfl⟩
              · rw [if_neg hcarA] at h2
                by_cases hdol : c = ch '$'
                · rw [if_pos hdol] at h2
                  simp only [GoResult.ok.injEq, Prod.mk.injEq] at h2
                  obtain ⟨ha, hb⟩ := h2
                  subst ha
                  subst hb
                  exact ⟨rfl, rfl, rfl⟩
                · rw [if_neg hdol] at h2
                  by_cases hdot : c = ch '.'
                  · rw [if_pos hdot] at h2
                    simp only [GoResult.ok.injEq, Prod.mk.injEq] at h2
                    obtain ⟨ha, hb⟩ := h2
                    subst ha
                    subst hb
                    exact ⟨rfl, rfl, rfl⟩
                  · rw [if_neg hdot] at h2
                    simp only [GoResult.ok.injEq, Prod.mk.injEq] at h2
                    obtain ⟨ha, hb⟩ := h2
                    subst ha
                    subst hb
                    exact ⟨rfl, rfl, rfl⟩

theorem parse_no_paren (pattern : List Nat) (ast : Ast.Node) (n : Nat)
    (hnp : (ch '(') ∉ pattern) (h : Ast.parse pattern = .ok (ast, n)) :
    Ast.noCapture ast = true ∧ n = 1 := by
  simp only [Ast.parse] at h
  by_cases hemp : pattern = []
  · rw [if_pos hemp] at h
    exact absurd h (by simp)
  · rw [if_neg hemp] at h
    cases hq : Ast.parseExpressionF (Ast.parseFuel pattern) ⟨pattern, 0, 1⟩ with
    | err m => rw [hq] at h; exact absurd h (by simp)
    | panicked m => rw [hq] at h; exact absurd h (by simp)
    | timeout => rw [hq] at h; exact absurd h (by simp)
    | ok ap =>
      obtain ⟨ast0, p1⟩ := ap
      rw [hq] at h
      have h2 : GoResult.ok (ast0, p1.nextGroupId) = GoResult.ok (ast, n) := h
      simp only [GoResult.ok.injEq, Prod.mk.injEq] at h2
      obtain ⟨ha, hb⟩ := h2
      have hres := (parser_no_paren (Ast.parseFuel pattern)).1 ⟨pattern, 0, 1⟩ ast0 p1 hnp hq
      exact ⟨by rw [← ha]; exact hres.1, by rw [← hb]; exact hres.2.1⟩

theorem hybridScan_extract :
    ∀ (ps : List Nat) fuel (ast : Ast.Node) (input : List Nat) caps0 p caps,
      Ast.hybridScanF fuel ast input caps0 ps = .ok (some (p, caps)) →
      p ∈ ps ∧ ∃ r rs, Ast.matchAllF fuel ast input p caps0 = some (r :: rs) ∧
        caps = Ast.buildCaptures input p r.endPos r.captures := by
  intro ps
  induction ps with
  | nil => intro fuel ast input caps0 p caps h; simp [Ast.hybridScanF] at h
  | cons q qs ih =>
    intro fuel ast input caps0 p caps h
    simp only [Ast.hybridScanF] at h
    cases hm : Ast.matchAllF fuel ast input q caps0 with
    | none => rw [hm] at h; exact absurd h (by simp)
    | some rs0 =>
      rw [hm] at h
      cases rs0 with
      | nil =>
        have hrec := ih fuel ast input caps0 p caps h
        exact ⟨List.mem_cons_of_mem q hrec.1, hrec.2⟩
      | cons r rs2 =>
        have h2 : GoResult.ok (some (q, Ast.buildCaptures input q r.endPos r.captures))
            = GoResult.ok (some (p, caps)) := h
        simp only [GoResult.ok.injEq, Option.some.injEq, Prod.mk.injEq] at h2
        obtain ⟨hq2, hc2⟩ := h2
        subst hq2
        exact ⟨List.mem_cons_self q qs, r, rs2, hm, hc2.symm⟩

theorem setGroup_lookup (l : List (Nat × Nfa.CaptureGroup)) (k : Nat) (g : Nfa.CaptureGroup) :
    (Nfa.setGroup l k g).lookup k = some g := by
  induction l with
  | nil => simp [Nfa.setGroup, List.lookup]
  | cons kv rest ih =>
    simp only [Nfa.setGroup]
    by_cases hk : kv.1 = k
    · rw [if_pos hk]
      simp [List.lookup]
    · rw [if_neg hk]
      have hne : (k == kv.1) = false := by
        simp
        exact fun he => hk he.symm
      simp [List.lookup, hne, ih]

theorem runLoop_group0 (store : Nfa.Store) (input : List Nat) (scanStart : Nat) (hasEnd : Bool) :
    ∀ fuel contexts groups,
      Nfa.runLoopF store input scanStart hasEnd fuel contexts = some ⟨true, groups⟩ →
      ∃ e, groups.lookup 0 = some ⟨scanStart, e, sliceB input scanStart e⟩ := by
  intro fuel
  induction fuel with
  | zero => intro contexts groups h; simp [Nfa.runLoopF] at h
  | succ fuel ih =>
    intro contexts groups h
    simp only [Nfa.runLoopF] at h
    cases hd : Nfa.deltaFunction store contexts input with
    | nil =>
      rw [hd] at h
      have h2 : (some (⟨false, []⟩ : Nfa.MatchResult)) = some ⟨true, groups⟩ := h
      simp at h2
    | cons c0 cs0 =>
      rw [hd] at h
      have h2 : (match ((Nfa.epsilonClosure store (c0 :: cs0) input).map fun ctx =>
            if (Nfa.getState store ctx.state).isAccept then Nfa.setGroup0 input scanStart ctx
            else ctx).find? (Nfa.acceptOK store hasEnd input.length) with
          | some ctx => some (⟨true, ctx.completedGroups⟩ : Nfa.MatchResult)
          | none =>
            Nfa.runLoopF store input scanStart hasEnd fuel
              ((Nfa.epsilonClosure store (c0 :: cs0) input).map fun ctx =>
                if (Nfa.getState store ctx.state).isAccept then Nfa.setGroup0 input scanStart ctx
                else ctx)) = some ⟨true, groups⟩ := h
      cases hf : ((Nfa.epsilonClosure store (c0 :: cs0) input).map fun ctx =>
          if (Nfa.getState store ctx.state).isAccept then Nfa.setGroup0 input scanStart ctx
          else ctx).find? (Nfa.acceptOK store hasEnd input.length) with
      | none =>
        rw [hf] at h2
        exact ih _ groups h2
      | some ctx =>
        rw [hf] at h2
        have h3 : some (⟨true, ctx.completedGroups⟩ : Nfa.MatchResult)
            = some ⟨true, groups⟩ := h2
        simp only [Option.some.injEq, Nfa.MatchResult.mk.injEq] at h3
        have hg : ctx.completedGroups = groups := h3.2
        have hacc := List.find?_some hf
        have hmem := List.mem_of_find?_eq_some hf
        obtain ⟨c, hcmem, hfc⟩ := List.mem_map.mp hmem
        have hiacc : (Nfa.getState store ctx.state).isAccept = true := by
          have := hacc
          simp only [Nfa.acceptOK, Bool.and_eq_true] at this
          exact this.1
        have hstate : ctx.state = c.state := by
          by_cases hia2 : (Nfa.getState store c.state).isAccept = true
          · rw [if_pos hia2] at hfc
            rw [← hfc]
            rfl
          · rw [if_neg hia2] at hfc
            rw [← hfc]
        by_cases hia2 : (Nfa.getState store c.state).isAccept = true
        · rw [if_pos hia2] at hfc
          refine ⟨c.pos, ?_⟩
          rw [← hg, ← hfc]
          exact setGroup_lookup c.completedGroups 0 _
        · rw [if_neg hia2] at hfc
          rw [hstate] at hiacc
          exact absurd hiacc hia2

theorem RunF_group0 (store : Nfa.Store) (nfa : Nfa.NFA) (input : List Nat) (pos : Nat)
    (hasEnd : Bool) (fuel : Nat) (groups : List (Nat × Nfa.CaptureGroup))
    (h : Nfa.RunF store nfa input pos hasEnd fuel = some ⟨true, groups⟩) :
    ∃ e, groups.lookup 0 = some ⟨pos, e, sliceB input pos e⟩ := by
  simp only [Nfa.RunF] at h
  exact runLoop_group0 store input pos hasEnd fuel _ groups h

/-- C3: whenever a scanning driver reports a match that started at scan
position p, capture 0 of the returned captures is exactly the slice of the
input from p of the corresponding length (the entire match), and when the
pattern contains no capture group the hybrid driver's captures list is
exactly the singleton [entire_match]; in the NFA engine, a successful run
started at position p records group 0 as the input slice from p to the
accepting position. -/
theorem c3_group_zero_is_entire_match :
    (∀ fuel (input pattern : List Nat) p caps,
       Ast.MatchASTHybridScan fuel input pattern = .ok (some (p, caps)) →
       ∃ c0, caps.head? = some c0 ∧ c0 = sliceB input p (p + c0.length) ∧
         ((ch '(') ∉ pattern → caps = [c0]))
    ∧ (∀ store nfa (input : List Nat) pos hasEnd fuel groups,
       Nfa.RunF store nfa input pos hasEnd fuel = some ⟨true, groups⟩ →
       ∃ e, groups.lookup 0 = some ⟨pos, e, sliceB input pos e⟩) := by
  constructor
  · intro fuel input pattern p caps h
    simp only [Ast.MatchASTHybridScan] at h
    cases hp : Ast.parse pattern with
    | err m => rw [hp] at h; exact absurd h (by simp)
    | panicked m => rw [hp] at h; exact absurd h (by simp)
    | timeout => rw [hp] at h; exact absurd h (by simp)
    | ok an =>
      obtain ⟨ast, numGroups⟩ := an
      rw [hp] at h
      have h2 : Ast.hybridScanF fuel ast input (List.replicate numGroups [])
          (if Ast.startsWithCaret pattern then [0] else List.range input.length)
          = GoResult.ok (some (p, caps)) := h
      obtain ⟨hpmem, r, rs, hm, hcaps⟩ :=
        hybridScan_extract _ fuel ast input _ p caps h2
      have hple : p ≤ input.length := by
        by_cases hc : Ast.startsWithCaret pattern = true
        · rw [if_pos hc] at hpmem
          have hp0 : p = 0 := by simpa using hpmem
          omega
        · rw [if_neg hc] at hpmem
          have := List.mem_range.mp hpmem
          omega
      have hb := ((matchAll_bounds fuel).1 ast input p _ (r :: rs) hm hple) r
        (List.mem_cons_self r rs)
      have hlen : (sliceB input p r.endPos).length = r.endPos - p :=
        sliceB_length input p r.endPos hb.1 hb.2
      have hslice : sliceB input p r.endPos
          = sliceB input p (p + (sliceB input p r.endPos).length) := by
        rw [hlen]
        congr 1
        omega
      cases hrc : r.captures with
      | nil =>
        have hbc : Ast.buildCaptures input p r.endPos r.captures
            = [sliceB input p r.endPos] := by
          rw [hrc]
          rfl
        refine ⟨sliceB input p r.endPos, ?_, hslice, ?_⟩
        · rw [hcaps, hbc]
          rfl
        · intro hnpar
          rw [hcaps, hbc]
      | cons c1 ccs =>
        have hbc : Ast.buildCaptures input p r.endPos r.captures
            = sliceB input p r.endPos :: ccs := by
          rw [hrc]
          rfl
        refine ⟨sliceB input p r.endPos, ?_, hslice, ?_⟩
        · rw [hcaps, hbc]
          rfl
        · intro hnpar
          have hpp := parse_no_paren pattern ast numGroups hnpar hp
          have hpres := (matchAll_preserves_caps fuel).1 ast input p
            (List.replicate numGroups []) (r :: rs) hpp.1 hm r (List.mem_cons_self r rs)
          rw [hpp.2] at hpres
          rw [hrc] at hpres
          simp only [List.replicate, List.cons.injEq] at hpres
          rw [hcaps, hbc, hpres.2]
  · intro store nfa input pos hasEnd fuel groups h
    simp only [Nfa.RunF] at h
    exact runLoop_group0 store input pos hasEnd fuel _ groups h

theorem c3_group_zero_witness :
    (Ast.MatchASTHybridScan 50 (bytes "xab") (bytes "ab") = .ok (some (1, [bytes "ab"])) ∧
     ∃ c0, [bytes "ab"].head? = some c0 ∧ c0 = sliceB (bytes "xab") 1 (1 + c0.length) ∧
       ((ch '(') ∉ bytes "ab" → [bytes "ab"] = [c0]))
    ∧ (Nfa.RunF [(0, ⟨false, [⟨1, Nfa.Matcher.literal 97⟩]⟩), (1, ⟨true, []⟩)] ⟨0, 1⟩
         (bytes "a") 0 false 5 = some ⟨true, [(0, ⟨0, 1, bytes "a"⟩)]⟩ ∧
       ∃ e, ([(0, (⟨0, 1, bytes "a"⟩ : Nfa.CaptureGroup))] : List (Nat × Nfa.CaptureGroup)).lookup 0
           = some ⟨0, e, sliceB (bytes "a") 0 e⟩) :=
  ⟨⟨by decide,
    c3_group_zero_is_entire_match.1 50 (bytes "xab") (bytes "ab") 1 [bytes "ab"] (by decide)⟩,
   ⟨by decide,
    c3_group_zero_is_entire_match.2 [(0, ⟨false, [⟨1, Nfa.Matcher.literal 97⟩]⟩), (1, ⟨true, []⟩)]
      ⟨0, 1⟩ (bytes "a") 0 false 5 [(0, ⟨0, 1, bytes "a"⟩)] (by decide)⟩⟩
